import Mathlib

/-!
# Verification of the memtable / write-ahead-log core

A shallow embedding of the three source files of the repository
(`mem_table.rs`, `wal.rs`, `wal_iterator.rs`) together with proofs of the
specification's claims about them.

Modelling conventions:

* Byte sequences (`Vec<u8>`, `&[u8]`) are `List Nat`; a real byte is `< 256`,
  but none of the definitions below depends on that bound, so values are left
  unconstrained.
* `usize` / `u128` arithmetic is modelled on unbounded `Nat`.  Subtraction
  (`self.size -= …`) is `Nat` truncated subtraction; every statement proved
  below stays in the regime where the subtrahend is at most the minuend and
  all quantities stay below the machine width, where this model agrees with
  the Rust semantics.
* File I/O is modelled by passing byte lists and directory association lists
  explicitly; fallible I/O used by the recovery path gets a separate model
  (`from_dirEff`) in which each fallible primitive's result is an input.
-/

/-- Byte-wise lexicographic strict order on byte sequences: the `Ord`
instance of Rust `&[u8]` / `Vec<u8>` used by `binary_search_by_key` and by
`Vec::<PathBuf>::sort` (restricted to file names in one directory). -/
def bytesLt : List Nat → List Nat → Bool
  | [], [] => false
  | [], _ :: _ => true
  | _ :: _, [] => false
  | a :: as, b :: bs => if a < b then true else if b < a then false else bytesLt as bs

/-- Non-strict byte-wise lexicographic order. -/
def bytesLe (a b : List Nat) : Bool := !(bytesLt b a)

theorem bytesLt_irrefl : ∀ a : List Nat, bytesLt a a = false := by
  intro a
  induction a with
  | nil => rfl
  | cons x xs ih => simp [bytesLt, ih]

theorem bytesLt_trans : ∀ {a b c : List Nat},
    bytesLt a b = true → bytesLt b c = true → bytesLt a c = true := by
  intro a
  induction a with
  | nil =>
    intro b c hab hbc
    cases b with
    | nil => exact absurd hab (by simp [bytesLt])
    | cons y ys =>
      cases c with
      | nil => exact absurd hbc (by simp [bytesLt])
      | cons z zs => simp [bytesLt]
  | cons x xs ih =>
    intro b c hab hbc
    cases b with
    | nil => exact absurd hab (by simp [bytesLt])
    | cons y ys =>
      cases c with
      | nil => exact absurd hbc (by simp [bytesLt])
      | cons z zs =>
        simp only [bytesLt] at hab hbc ⊢
        rcases Nat.lt_trichotomy x y with hxy | hxy | hxy
        · rcases Nat.lt_trichotomy y z with hyz | hyz | hyz
          · rw [if_pos (Nat.lt_trans hxy hyz)]
          · subst hyz; rw [if_pos hxy]
          · rw [if_neg (Nat.lt_asymm hyz), if_pos hyz] at hbc
            exact absurd hbc (by simp)
        · subst hxy
          rw [if_neg (Nat.lt_irrefl x)] at hab
          rw [if_neg (Nat.lt_irrefl x)] at hab
          rcases Nat.lt_trichotomy x z with hxz | hxz | hxz
          · rw [if_pos hxz]
          · subst hxz
            rw [if_neg (Nat.lt_irrefl x)] at hbc
            rw [if_neg (Nat.lt_irrefl x)] at hbc
            rw [if_neg (Nat.lt_irrefl x), if_neg (Nat.lt_irrefl x)]
            exact ih hab hbc
          · rw [if_neg (Nat.lt_asymm hxz), if_pos hxz] at hbc
            exact absurd hbc (by simp)
        · rw [if_neg (Nat.lt_asymm hxy), if_pos hxy] at hab
          exact absurd hab (by simp)

theorem bytesLt_connex : ∀ {a b : List Nat},
    bytesLt a b = false → bytesLt b a = false → a = b := by
  intro a
  induction a with
  | nil =>
    intro b hab _
    cases b with
    | nil => rfl
    | cons y ys => exact absurd hab (by simp [bytesLt])
  | cons x xs ih =>
    intro b hab hba
    cases b with
    | nil => exact absurd hba (by simp [bytesLt])
    | cons y ys =>
      simp only [bytesLt] at hab hba
      rcases Nat.lt_trichotomy x y with hxy | hxy | hxy
      · rw [if_pos hxy] at hab
        exact absurd hab (by simp)
      · subst hxy
        rw [if_neg (Nat.lt_irrefl x)] at hab hba
        rw [if_neg (Nat.lt_irrefl x)] at hab hba
        rw [ih hab hba]
      · rw [if_pos hxy] at hba
        exact absurd hba (by simp)

theorem bytesLt_asymm {a b : List Nat} (h : bytesLt a b = true) : bytesLt b a = false := by
  by_contra hba
  have hba' : bytesLt b a = true := by
    cases hh : bytesLt b a with
    | false => exact absurd hh hba
    | true => rfl
  have := bytesLt_trans h hba'
  rw [bytesLt_irrefl] at this
  exact Bool.false_ne_true this

/-- `MemTableEntry` (mem_table.rs): a key, an optional value (`none` encodes a
tombstone), the microsecond timestamp of the write, and the deletion flag. -/
structure MemTableEntry where
  key : List Nat
  value : Option (List Nat)
  timestamp : Nat
  deleted : Bool
deriving DecidableEq, Repr

/-- `MemTable` (mem_table.rs): a sorted vector of entries plus the running
byte-size accounting field. -/
structure MemTable where
  entries : List MemTableEntry
  size : Nat
deriving DecidableEq, Repr

namespace MemTable

/-- `MemTable::new`: the empty table. -/
def new : MemTable := ⟨[], 0⟩

/-- `MemTable::get_index`: `entries.binary_search_by_key(&key, |e| e.key)`.

Rust's binary search over a slice sorted by key (the table's invariant)
returns `Ok(i)` at the unique index holding `key`, and otherwise `Err(i)` at
the unique sorted insertion point.  On sorted input both are computed by the
first index whose key is not below the probe, which is how the embedding
computes them. -/
def get_index (entries : List MemTableEntry) (key : List Nat) : Except Nat Nat :=
  let i := entries.findIdx (fun e => !bytesLt e.key key)
  match entries[i]? with
  | some e => if e.key = key then .ok i else .error i
  | none => .error i

/-- `MemTable::set`: binary-search for the key; if present, replace the entry
in place, adjusting `size` by the difference of value lengths when the old
entry held a value; if absent, insert at the sorted insertion point and add
`key.len + value.len + 16 + 1` to `size`. -/
def set (t : MemTable) (key value : List Nat) (timestamp : Nat) : MemTable :=
  let entry : MemTableEntry := ⟨key, some value, timestamp, false⟩
  match get_index t.entries key with
  | .ok idx =>
    let newSize :=
      match t.entries[idx]? with
      | some e =>
        match e.value with
        | some curr_val =>
          if curr_val.length > value.length then
            t.size - (curr_val.length - value.length)
          else
            t.size + (value.length - curr_val.length)
        | none => t.size
      | none => t.size
    ⟨t.entries.set idx entry, newSize⟩
  | .error idx =>
    ⟨t.entries.insertIdx idx entry, t.size + key.length + value.length + 16 + 1⟩

/-- `MemTable::get`: binary search; `some` of the stored entry (possibly a
tombstone) or `none` when the key is absent. -/
def get (t : MemTable) (key : List Nat) : Option MemTableEntry :=
  match get_index t.entries key with
  | .ok idx => t.entries[idx]?
  | .error _ => none

/-- The `for` loop of `MemTable::scan`: skip entries whose value is `none`,
return the first entry whose value equals the probe. -/
def scanLoop : List MemTableEntry → List Nat → Option MemTableEntry
  | [], _ => none
  | e :: rest, value =>
    match e.value with
    | some curr_val => if value = curr_val then some e else scanLoop rest value
    | none => scanLoop rest value

/-- `MemTable::scan`: linear forward search over the entries, skipping entries
whose value is `none`, returning the first entry whose value equals the probe. -/
def scan (t : MemTable) (value : List Nat) : Option MemTableEntry :=
  scanLoop t.entries value

/-- `MemTable::delete`: the tombstone upsert.  If the key is present and the
old entry held a value, subtract that value's length from `size`; if absent,
insert a tombstone and add `key.len + 16 + 1`. -/
def delete (t : MemTable) (key : List Nat) (timestamp : Nat) : MemTable :=
  let entry : MemTableEntry := ⟨key, none, timestamp, true⟩
  match get_index t.entries key with
  | .ok idx =>
    let newSize :=
      match t.entries[idx]? with
      | some e =>
        match e.value with
        | some curr_val => t.size - curr_val.length
        | none => t.size
      | none => t.size
    ⟨t.entries.set idx entry, newSize⟩
  | .error idx =>
    ⟨t.entries.insertIdx idx entry, t.size + key.length + 16 + 1⟩

/-- `MemTable::len`. -/
def len (t : MemTable) : Nat := t.entries.length

end MemTable

/-- One mutation of the table: the argument list of a `set` or `delete` call. -/
inductive TableOp where
  | setOp (key value : List Nat) (timestamp : Nat)
  | delOp (key : List Nat) (timestamp : Nat)
deriving DecidableEq, Repr

/-- Apply one operation to the table. -/
def applyOp (t : MemTable) : TableOp → MemTable
  | .setOp k v ts => t.set k v ts
  | .delOp k ts => t.delete k ts

/-- Apply a sequence of operations in order. -/
def applyOps (t : MemTable) (ops : List TableOp) : MemTable :=
  ops.foldl applyOp t

/-- The spec's per-entry accounting unit: `key.len + value.len (or 0) + 17`,
where `17 = 16 (timestamp) + 1 (tombstone byte)`. -/
def entrySize (e : MemTableEntry) : Nat :=
  e.key.length + (match e.value with | some v => v.length | none => 0) + 17

/-- The spec's full-recompute size: `Σ entrySize` over the current entries. -/
def sigmaSize (l : List MemTableEntry) : Nat := (l.map entrySize).sum

example : (MemTable.new.set [77] [1,2] 5).size = 1 + 2 + 17 := by decide
example : (MemTable.new.set [77] [1,2] 5).entries = [⟨[77], some [1,2], 5, false⟩] := by decide
example : ((MemTable.new.delete [0] 0).set [0] [1,1] 1).size = 18 := by decide
example : sigmaSize ((MemTable.new.delete [0] 0).set [0] [1,1] 1).entries = 20 := by decide

/-! ## Sortedness and flag invariants of the table -/

/-- The table invariant: entries strictly ascending by byte-wise key order. -/
def entriesSorted (l : List MemTableEntry) : Prop :=
  l.Pairwise (fun a b => bytesLt a.key b.key = true)

/-- Both mutations replace at the found index or insert at the reported
insertion point; this is that shared shape on the entry list. -/
def upsertEntries (l : List MemTableEntry) (k : List Nat) (e : MemTableEntry) :
    List MemTableEntry :=
  match MemTable.get_index l k with
  | .ok idx => l.set idx e
  | .error idx => l.insertIdx idx e

theorem set_entries (t : MemTable) (k v : List Nat) (ts : Nat) :
    (t.set k v ts).entries = upsertEntries t.entries k ⟨k, some v, ts, false⟩ := by
  unfold MemTable.set upsertEntries
  cases MemTable.get_index t.entries k <;> rfl

theorem delete_entries (t : MemTable) (k : List Nat) (ts : Nat) :
    (t.delete k ts).entries = upsertEntries t.entries k ⟨k, none, ts, true⟩ := by
  unfold MemTable.delete upsertEntries
  cases MemTable.get_index t.entries k <;> rfl

theorem get_index_ok {l : List MemTableEntry} {k : List Nat} {i : Nat}
    (h : MemTable.get_index l k = .ok i) :
    i = l.findIdx (fun x => !bytesLt x.key k) ∧ ∃ e0, l[i]? = some e0 ∧ e0.key = k := by
  simp only [MemTable.get_index] at h
  split at h
  · rename_i e0 hg
    split at h
    · rename_i hk
      cases h
      exact ⟨rfl, e0, hg, hk⟩
    · exact absurd h (by simp)
  · exact absurd h (by simp)

theorem get_index_error {l : List MemTableEntry} {k : List Nat} {i : Nat}
    (h : MemTable.get_index l k = .error i) :
    i = l.findIdx (fun x => !bytesLt x.key k) ∧ ∀ e', l[i]? = some e' → e'.key ≠ k := by
  simp only [MemTable.get_index] at h
  split at h
  · rename_i e0 hg
    split at h
    · exact absurd h (by simp)
    · rename_i hk
      cases h
      refine ⟨rfl, ?_⟩
      intro e' he'
      rw [hg] at he'
      cases he'
      exact hk
  · rename_i hg
    cases h
    refine ⟨rfl, ?_⟩
    intro e' he'
    rw [hg] at he'
    simp at he'

theorem sorted_set_same_key :
    ∀ (l : List MemTableEntry) (i : Nat) (e0 e : MemTableEntry),
    l[i]? = some e0 → e.key = e0.key → entriesSorted l → entriesSorted (l.set i e) := by
  intro l
  induction l with
  | nil => intro i e0 e h _ _; simp at h
  | cons x xs ih =>
    intro i e0 e h hk hs
    cases i with
    | zero =>
      rw [List.getElem?_cons_zero] at h
      cases h
      rw [List.set_cons_zero]
      rcases hs with - | ⟨hx, hxs⟩
      exact List.Pairwise.cons (by intro b hb; rw [hk]; exact hx b hb) hxs
    | succ i =>
      rw [List.getElem?_cons_succ] at h
      rw [List.set_cons_succ]
      rcases hs with - | ⟨hx, hxs⟩
      refine List.Pairwise.cons ?_ (ih i e0 e h hk hxs)
      intro b hb
      rcases List.mem_or_eq_of_mem_set hb with hmem | rfl
      · exact hx b hmem
      · rw [hk]
        exact hx e0 (List.getElem?_mem h)

theorem sorted_insert_at_findIdx (k : List Nat) (e : MemTableEntry) (he : e.key = k) :
    ∀ l : List MemTableEntry, entriesSorted l →
      (∀ e', l[l.findIdx (fun x => !bytesLt x.key k)]? = some e' → e'.key ≠ k) →
      entriesSorted (l.insertIdx (l.findIdx (fun x => !bytesLt x.key k)) e) := by
  intro l
  induction l with
  | nil =>
    intro _ _
    simp [entriesSorted]
  | cons x xs ih =>
    intro hs hne
    rcases hs with - | ⟨hx, hxs⟩
    rw [List.findIdx_cons] at hne ⊢
    cases hp : bytesLt x.key k with
    | false =>
      simp only [hp, Bool.not_false, cond_true] at hne ⊢
      rw [List.insertIdx_zero]
      have hxk : x.key ≠ k := hne x List.getElem?_cons_zero
      have hkx : bytesLt k x.key = true := by
        cases hh : bytesLt k x.key
        · exact absurd (bytesLt_connex hp hh) hxk
        · rfl
      refine List.Pairwise.cons ?_ (List.Pairwise.cons hx hxs)
      intro b hb
      rcases List.mem_cons.mp hb with rfl | hbxs
      · rw [he]; exact hkx
      · rw [he]; exact bytesLt_trans hkx (hx b hbxs)
    | true =>
      simp only [hp, Bool.not_true, cond_false] at hne ⊢
      rw [List.insertIdx_succ_cons]
      refine List.Pairwise.cons ?_ ?_
      · intro b hb
        rcases (List.mem_insertIdx (List.findIdx_le_length _)).mp hb with rfl | hbxs
        · rw [he]; exact hp
        · exact hx b hbxs
      · refine ih hxs ?_
        intro e' he'
        exact hne e' (by rw [List.getElem?_cons_succ]; exact he')

theorem sorted_upsert {l : List MemTableEntry} {k : List Nat} {e : MemTableEntry}
    (he : e.key = k) (h : entriesSorted l) : entriesSorted (upsertEntries l k e) := by
  unfold upsertEntries
  rcases hg : MemTable.get_index l k with i | i
  · rcases get_index_error hg with ⟨hi, hne⟩
    subst hi
    exact sorted_insert_at_findIdx k e he l h hne
  · rcases get_index_ok hg with ⟨_, e0, h0, hk0⟩
    exact sorted_set_same_key l i e0 e h0 (by rw [he, hk0]) h

theorem sorted_applyOp {t : MemTable} (op : TableOp)
    (h : entriesSorted t.entries) : entriesSorted (applyOp t op).entries := by
  cases op with
  | setOp k v ts => rw [applyOp, set_entries]; exact sorted_upsert rfl h
  | delOp k ts => rw [applyOp, delete_entries]; exact sorted_upsert rfl h

theorem sorted_applyOps (t : MemTable) (ops : List TableOp)
    (h : entriesSorted t.entries) : entriesSorted (applyOps t ops).entries := by
  induction ops generalizing t with
  | nil => exact h
  | cons op rest ih => exact ih (applyOp t op) (sorted_applyOp op h)

/-! ## Branch characterizations of the mutations -/

theorem get_found {t : MemTable} {k : List Nat} {idx : Nat} {e0 : MemTableEntry}
    (hg : MemTable.get_index t.entries k = .ok idx) (h0 : t.entries[idx]? = some e0) :
    t.get k = some e0 := by
  simp only [MemTable.get, hg, h0]

theorem get_absent {t : MemTable} {k : List Nat} {idx : Nat}
    (hg : MemTable.get_index t.entries k = .error idx) : t.get k = none := by
  simp only [MemTable.get, hg]

theorem set_found {t : MemTable} {k v : List Nat} {ts : Nat} {idx : Nat}
    {e0 : MemTableEntry} {ov : List Nat}
    (hg : MemTable.get_index t.entries k = .ok idx) (h0 : t.entries[idx]? = some e0)
    (hov : e0.value = some ov) :
    t.set k v ts = ⟨t.entries.set idx ⟨k, some v, ts, false⟩,
      if ov.length > v.length then t.size - (ov.length - v.length)
      else t.size + (v.length - ov.length)⟩ := by
  simp only [MemTable.set, hg, h0, hov]

theorem set_found_tombstone {t : MemTable} {k v : List Nat} {ts : Nat} {idx : Nat}
    {e0 : MemTableEntry}
    (hg : MemTable.get_index t.entries k = .ok idx) (h0 : t.entries[idx]? = some e0)
    (hov : e0.value = none) :
    t.set k v ts = ⟨t.entries.set idx ⟨k, some v, ts, false⟩, t.size⟩ := by
  simp only [MemTable.set, hg, h0, hov]

theorem set_absent {t : MemTable} {k v : List Nat} {ts : Nat} {idx : Nat}
    (hg : MemTable.get_index t.entries k = .error idx) :
    t.set k v ts = ⟨t.entries.insertIdx idx ⟨k, some v, ts, false⟩,
      t.size + k.length + v.length + 16 + 1⟩ := by
  simp only [MemTable.set, hg]

theorem delete_found {t : MemTable} {k : List Nat} {ts : Nat} {idx : Nat}
    {e0 : MemTableEntry} {ov : List Nat}
    (hg : MemTable.get_index t.entries k = .ok idx) (h0 : t.entries[idx]? = some e0)
    (hov : e0.value = some ov) :
    t.delete k ts = ⟨t.entries.set idx ⟨k, none, ts, true⟩, t.size - ov.length⟩ := by
  simp only [MemTable.delete, hg, h0, hov]

theorem delete_found_tombstone {t : MemTable} {k : List Nat} {ts : Nat} {idx : Nat}
    {e0 : MemTableEntry}
    (hg : MemTable.get_index t.entries k = .ok idx) (h0 : t.entries[idx]? = some e0)
    (hov : e0.value = none) :
    t.delete k ts = ⟨t.entries.set idx ⟨k, none, ts, true⟩, t.size⟩ := by
  simp only [MemTable.delete, hg, h0, hov]

theorem delete_absent {t : MemTable} {k : List Nat} {ts : Nat} {idx : Nat}
    (hg : MemTable.get_index t.entries k = .error idx) :
    t.delete k ts = ⟨t.entries.insertIdx idx ⟨k, none, ts, true⟩,
      t.size + k.length + 16 + 1⟩ := by
  simp only [MemTable.delete, hg]

/-! ## Size accounting -/

theorem sum_map_insertIdx {α : Type} (f : α → Nat) :
    ∀ (l : List α) (i : Nat) (a : α), i ≤ l.length →
      ((l.insertIdx i a).map f).sum = (l.map f).sum + f a := by
  intro l
  induction l with
  | nil =>
    intro i a hi
    have h0 : i = 0 := Nat.le_zero.mp hi
    subst h0
    simp
  | cons x xs ih =>
    intro i a hi
    cases i with
    | zero => simp [List.insertIdx_zero]; omega
    | succ i =>
      rw [List.insertIdx_succ_cons]
      simp only [List.map_cons, List.sum_cons]
      rw [ih i a (by simpa using hi)]
      omega

theorem sum_map_set {α : Type} (f : α → Nat) :
    ∀ (l : List α) (i : Nat) (a e0 : α), l[i]? = some e0 →
      ((l.set i a).map f).sum + f e0 = (l.map f).sum + f a := by
  intro l
  induction l with
  | nil => intro i a e0 h; simp at h
  | cons x xs ih =>
    intro i a e0 h
    cases i with
    | zero =>
      rw [List.getElem?_cons_zero] at h
      cases h
      simp [List.set_cons_zero]
      omega
    | succ i =>
      rw [List.getElem?_cons_succ] at h
      rw [List.set_cons_succ]
      simp only [List.map_cons, List.sum_cons]
      have := ih i a e0 h
      omega

theorem entrySize_le_sigma {l : List MemTableEntry} {e0 : MemTableEntry} (h : e0 ∈ l) :
    entrySize e0 ≤ sigmaSize l :=
  List.single_le_sum (by intro x _; exact Nat.zero_le x) _ (List.mem_map_of_mem entrySize h)

theorem sigmaSize_insertIdx {l : List MemTableEntry} {i : Nat} {e : MemTableEntry}
    (hi : i ≤ l.length) : sigmaSize (l.insertIdx i e) = sigmaSize l + entrySize e :=
  sum_map_insertIdx entrySize l i e hi

theorem sigmaSize_set {l : List MemTableEntry} {i : Nat} {e e0 : MemTableEntry}
    (h : l[i]? = some e0) :
    sigmaSize (l.set i e) + entrySize e0 = sigmaSize l + entrySize e :=
  sum_map_set entrySize l i e e0 h

/-! ## Flag invariant: tombstones are exactly the valueless entries -/

/-- Every entry's `deleted` flag agrees with its value being absent. -/
def flagsOk (l : List MemTableEntry) : Prop :=
  ∀ e ∈ l, e.deleted = true ↔ e.value = none

theorem flagsOk_upsert {l : List MemTableEntry} {k : List Nat} {e : MemTableEntry}
    (he : e.deleted = true ↔ e.value = none) (h : flagsOk l) :
    flagsOk (upsertEntries l k e) := by
  unfold upsertEntries
  rcases hg : MemTable.get_index l k with i | i
  · rcases get_index_error hg with ⟨hi, -⟩
    intro e' he'
    have hle : i ≤ l.length := by rw [hi]; exact List.findIdx_le_length _
    rcases (List.mem_insertIdx hle).mp he' with rfl | hm
    · exact he
    · exact h e' hm
  · intro e' he'
    rcases List.mem_or_eq_of_mem_set he' with hm | rfl
    · exact h e' hm
    · exact he

theorem flagsOk_applyOp {t : MemTable} (op : TableOp) (h : flagsOk t.entries) :
    flagsOk (applyOp t op).entries := by
  cases op with
  | setOp k v ts => rw [applyOp, set_entries]; exact flagsOk_upsert (by simp) h
  | delOp k ts => rw [applyOp, delete_entries]; exact flagsOk_upsert (by simp) h

theorem flagsOk_applyOps (t : MemTable) (ops : List TableOp) (h : flagsOk t.entries) :
    flagsOk (applyOps t ops).entries := by
  induction ops generalizing t with
  | nil => exact h
  | cons op rest ih => exact ih (applyOp t op) (flagsOk_applyOp op h)

/-! ## Size-accounting invariant -/

/-- The spec's incremental-vs-full-recompute equivalence at one state. -/
def sizeInv (t : MemTable) : Prop := t.size = sigmaSize t.entries

/-- No `set` in the sequence lands on a key currently holding a tombstone
(checked along the replay). -/
def noSetOnTombstone (t : MemTable) : List TableOp → Bool
  | [] => true
  | op :: rest =>
    (match op with
     | .setOp k _ _ =>
       (match t.get k with
        | some e => e.value.isSome
        | none => true)
     | .delOp _ _ => true) && noSetOnTombstone (applyOp t op) rest

theorem get_inv {t : MemTable} {k : List Nat} {e : MemTableEntry}
    (h : t.get k = some e) :
    ∃ idx, MemTable.get_index t.entries k = .ok idx ∧ t.entries[idx]? = some e := by
  unfold MemTable.get at h
  split at h
  · rename_i idx hg
    exact ⟨idx, hg, h⟩
  · exact absurd h (by simp)

theorem sizeInv_set {t : MemTable} {k v : List Nat} {ts : Nat}
    (hinv : sizeInv t)
    (hcond : (match t.get k with
              | some e => e.value.isSome
              | none => true) = true) :
    sizeInv (t.set k v ts) := by
  rcases hg : MemTable.get_index t.entries k with idx | idx
  · rcases get_index_error hg with ⟨hi, -⟩
    have hle : idx ≤ t.entries.length := by rw [hi]; exact List.findIdx_le_length _
    rw [set_absent hg]
    unfold sizeInv at hinv ⊢
    dsimp only
    rw [sigmaSize_insertIdx hle]
    have he : entrySize ⟨k, some v, ts, false⟩ = k.length + v.length + 17 := rfl
    rw [he]
    omega
  · rcases get_index_ok hg with ⟨hi, e0, h0, hk0⟩
    rw [get_found hg h0] at hcond
    obtain ⟨ov, hov⟩ := Option.isSome_iff_exists.mp hcond
    rw [set_found hg h0 hov]
    unfold sizeInv at hinv ⊢
    dsimp only
    have hsig := sigmaSize_set (e := ⟨k, some v, ts, false⟩) h0
    have hmem := entrySize_le_sigma (List.getElem?_mem h0)
    have he0 : entrySize e0 = k.length + ov.length + 17 := by
      unfold entrySize
      rw [hov, hk0]
    have hnew : entrySize ⟨k, some v, ts, false⟩ = k.length + v.length + 17 := rfl
    rw [he0, hnew] at hsig
    rw [he0] at hmem
    split <;> omega

theorem sizeInv_delete {t : MemTable} {k : List Nat} {ts : Nat}
    (hinv : sizeInv t) : sizeInv (t.delete k ts) := by
  rcases hg : MemTable.get_index t.entries k with idx | idx
  · rcases get_index_error hg with ⟨hi, -⟩
    have hle : idx ≤ t.entries.length := by rw [hi]; exact List.findIdx_le_length _
    rw [delete_absent hg]
    unfold sizeInv at hinv ⊢
    dsimp only
    rw [sigmaSize_insertIdx hle]
    have he : entrySize ⟨k, none, ts, true⟩ = k.length + 0 + 17 := rfl
    rw [he]
    omega
  · rcases get_index_ok hg with ⟨hi, e0, h0, hk0⟩
    have hsig := sigmaSize_set (e := ⟨k, none, ts, true⟩) h0
    have hmem := entrySize_le_sigma (List.getElem?_mem h0)
    have hnew : entrySize ⟨k, none, ts, true⟩ = k.length + 0 + 17 := rfl
    rw [hnew] at hsig
    rcases hov : e0.value with - | ov
    · rw [delete_found_tombstone hg h0 hov]
      unfold sizeInv at hinv ⊢
      dsimp only
      have he0 : entrySize e0 = k.length + 0 + 17 := by
        unfold entrySize
        rw [hov, hk0]
        rfl
      rw [he0] at hsig hmem
      omega
    · rw [delete_found hg h0 hov]
      unfold sizeInv at hinv ⊢
      dsimp only
      have he0 : entrySize e0 = k.length + ov.length + 17 := by
        unfold entrySize
        rw [hov, hk0]
      rw [he0] at hsig hmem
      omega

theorem sizeInv_applyOps : ∀ (ops : List TableOp) (t : MemTable),
    sizeInv t → noSetOnTombstone t ops = true → sizeInv (applyOps t ops) := by
  intro ops
  induction ops with
  | nil => intro t hinv _; exact hinv
  | cons op rest ih =>
    intro t hinv h
    unfold noSetOnTombstone at h
    rw [Bool.and_eq_true] at h
    rcases h with ⟨h1, h2⟩
    refine ih (applyOp t op) ?_ h2
    cases op with
    | setOp k v ts => exact sizeInv_set hinv h1
    | delOp k ts => exact sizeInv_delete hinv

/-! ## Claim C1: size accounting -/

/-- **C1** (counterexample): the claim asserts that after *every* sequence of
`set`/`delete` operations the `size` field equals
`Σ (key.len + value.len (or 0) + 17)` over the current entries.  It fails on
`delete([0], 0); set([0], [1,1], 1)`: `set` over an existing tombstone does
not add the new value's length, leaving `size = 18` while the formula gives
`20`. -/
theorem C1_counterexample :
    (applyOps MemTable.new [.delOp [0] 0, .setOp [0] [1, 1] 1]).size ≠
      sigmaSize (applyOps MemTable.new [.delOp [0] 0, .setOp [0] [1, 1] 1]).entries := by
  decide

/-- **C1** (amended): for every sequence of `set`/`delete` operations in which
no `set` lands on a key currently holding a tombstone, `size` afterwards
equals `Σ (key.len + value.len (or 0) + 17)` over the current entries;
moreover, on a sorted table whose `size` satisfies that formula, a `set` on an
existing key holding a value changes `size` by exactly the new value length
minus the old value length, and a `set` on an existing tombstone leaves `size`
unchanged. -/
theorem C1_size_accounting :
    (∀ ops : List TableOp, noSetOnTombstone MemTable.new ops = true →
        (applyOps MemTable.new ops).size =
          sigmaSize (applyOps MemTable.new ops).entries) ∧
    (∀ (t : MemTable) (k v : List Nat) (ts : Nat) (e : MemTableEntry) (ov : List Nat),
        entriesSorted t.entries → sizeInv t → t.get k = some e → e.value = some ov →
        (t.set k v ts).size + ov.length = t.size + v.length) ∧
    (∀ (t : MemTable) (k v : List Nat) (ts : Nat) (e : MemTableEntry),
        entriesSorted t.entries → t.get k = some e → e.value = none →
        (t.set k v ts).size = t.size) := by
  refine ⟨?_, ?_, ?_⟩
  · intro ops h
    exact sizeInv_applyOps ops MemTable.new rfl h
  · intro t k v ts e ov _ hinv hget hov
    obtain ⟨idx, hg, h0⟩ := get_inv hget
    rw [set_found hg h0 hov]
    dsimp only
    unfold sizeInv at hinv
    have hmem := entrySize_le_sigma (List.getElem?_mem h0)
    have he0 : entrySize e = e.key.length + ov.length + 17 := by
      unfold entrySize
      rw [hov]
    rw [he0] at hmem
    split <;> omega
  · intro t k v ts e _ hget hov
    obtain ⟨idx, hg, h0⟩ := get_inv hget
    rw [set_found_tombstone hg h0 hov]

/-- Witness for `C1_size_accounting` at concrete inputs. -/
theorem C1_size_accounting_witness :
    ((applyOps MemTable.new [.setOp [0] [1] 5]).size =
      sigmaSize (applyOps MemTable.new [.setOp [0] [1] 5]).entries) ∧
    (((applyOps MemTable.new [.setOp [0] [1, 2] 0]).set [0] [9] 7).size + 2 =
      (applyOps MemTable.new [.setOp [0] [1, 2] 0]).size + 1) ∧
    (((applyOps MemTable.new [.delOp [0] 0]).set [0] [9] 7).size =
      (applyOps MemTable.new [.delOp [0] 0]).size) :=
  ⟨C1_size_accounting.1 [.setOp [0] [1] 5] (by decide),
   C1_size_accounting.2.1 (applyOps MemTable.new [.setOp [0] [1, 2] 0]) [0] [9] 7
     ⟨[0], some [1, 2], 0, false⟩ [1, 2] (by unfold entriesSorted; decide)
     (by unfold sizeInv; decide)
     (by decide) rfl,
   C1_size_accounting.2.2 (applyOps MemTable.new [.delOp [0] 0]) [0] [9] 7
     ⟨[0], none, 0, true⟩ (by unfold entriesSorted; decide) (by decide) rfl⟩

/-! ## Claim C6: sortedness and key uniqueness -/

/-- **C6**: after every sequence of `set` and `delete` operations on a fresh
table, the entries are strictly ascending by byte-wise key comparison, and
consequently each key occurs in at most one entry. -/
theorem C6_sorted_unique_keys (ops : List TableOp) :
    entriesSorted (applyOps MemTable.new ops).entries ∧
    ((applyOps MemTable.new ops).entries.map (fun e => e.key)).Nodup := by
  have hs := sorted_applyOps MemTable.new ops List.Pairwise.nil
  refine ⟨hs, ?_⟩
  have hne : (applyOps MemTable.new ops).entries.Pairwise
      (fun a b => a.key ≠ b.key) := by
    refine hs.imp ?_
    intro a b hlt hk
    rw [hk, bytesLt_irrefl] at hlt
    exact Bool.false_ne_true hlt
  exact List.pairwise_map.mpr hne

/-! ## Claim C7: the worked size-accounting example -/

/-- ASCII bytes of "Monday". -/
def kMonday : List Nat := [77, 111, 110, 100, 97, 121]
/-- ASCII bytes of "Tuesday". -/
def kTuesday : List Nat := [84, 117, 101, 115, 100, 97, 121]
/-- ASCII bytes of "Friday". -/
def kFriday : List Nat := [70, 114, 105, 100, 97, 121]
/-- ASCII bytes of "Thursday". -/
def kThursday : List Nat := [84, 104, 117, 114, 115, 100, 97, 121]
/-- ASCII bytes of "Rejoice". -/
def vRejoice : List Nat := [82, 101, 106, 111, 105, 99, 101]
/-- ASCII bytes of "Celebrate". -/
def vCelebrate : List Nat := [67, 101, 108, 101, 98, 114, 97, 116, 101]
/-- ASCII bytes of "Party". -/
def vParty : List Nat := [80, 97, 114, 116, 121]
/-- ASCII bytes of "Blues". -/
def vBlues : List Nat := [66, 108, 117, 101, 115]

/-- The three initial insertions of the worked example, in one fixed order. -/
def threeSets : MemTable :=
  ((MemTable.new.set kMonday vRejoice 0).set kTuesday vCelebrate 10).set kFriday vParty 21

/-- **C7**: the worked example of the spec.  The three initial `set` calls in
any of the six orders give `size() = 91` and `len() = 3`; overwriting Monday
with Blues gives `size() = 89`; then deleting Monday gives `size() = 84` and
`get(Monday)` returns the tombstone with timestamp 30; from a fresh table with
the three sets, deleting the absent key Thursday gives `len() = 4`,
`size() = 116`, and `get(Thursday)` returns the tombstone with timestamp 30. -/
theorem C7_worked_example :
    (∀ t ∈ [((MemTable.new.set kMonday vRejoice 0).set kTuesday vCelebrate 10).set kFriday vParty 21,
            ((MemTable.new.set kMonday vRejoice 0).set kFriday vParty 21).set kTuesday vCelebrate 10,
            ((MemTable.new.set kTuesday vCelebrate 10).set kMonday vRejoice 0).set kFriday vParty 21,
            ((MemTable.new.set kTuesday vCelebrate 10).set kFriday vParty 21).set kMonday vRejoice 0,
            ((MemTable.new.set kFriday vParty 21).set kMonday vRejoice 0).set kTuesday vCelebrate 10,
            ((MemTable.new.set kFriday vParty 21).set kTuesday vCelebrate 10).set kMonday vRejoice 0],
        t.size = 91 ∧ t.len = 3) ∧
    (threeSets.set kMonday vBlues 25).size = 89 ∧
    ((threeSets.set kMonday vBlues 25).delete kMonday 30).size = 84 ∧
    ((threeSets.set kMonday vBlues 25).delete kMonday 30).get kMonday =
      some ⟨kMonday, none, 30, true⟩ ∧
    (threeSets.delete kThursday 30).len = 4 ∧
    (threeSets.delete kThursday 30).size = 116 ∧
    (threeSets.delete kThursday 30).get kThursday = some ⟨kThursday, none, 30, true⟩ := by
  decide

/-! ## Claim C9: scan -/

theorem scanLoop_eq_find? : ∀ (l : List MemTableEntry) (v : List Nat),
    MemTable.scanLoop l v = l.find? (fun e => e.value == some v) := by
  intro l v
  induction l with
  | nil => rfl
  | cons e rest ih =>
    rcases he : e.value with - | cv
    · simp only [MemTable.scanLoop, he]
      rw [List.find?_cons_of_neg, ih]
      simp [he]
    · by_cases hv : v = cv
      · subst hv
        simp only [MemTable.scanLoop, he]
        rw [if_pos trivial, List.find?_cons_of_pos]
        simp [he]
      · simp only [MemTable.scanLoop, he]
        rw [if_neg hv, List.find?_cons_of_neg, ih]
        simp only [he, beq_iff_eq, Option.some.injEq]
        exact fun hc => absurd hc.symm hv

/-- **C9**: on every reachable table, the entries are in ascending key order,
`scan(v)` returns the first entry in that order whose value byte-for-byte
equals `v` (skipping tombstones, whose value is `none` and never equals
`some v`), a returned entry always carries value `v` and is not a tombstone,
and `scan` reports absence exactly when no entry holds value `v`. -/
theorem C9_scan (ops : List TableOp) (v : List Nat) :
    entriesSorted (applyOps MemTable.new ops).entries ∧
    MemTable.scan (applyOps MemTable.new ops) v =
      (applyOps MemTable.new ops).entries.find? (fun e => e.value == some v) ∧
    (∀ e, MemTable.scan (applyOps MemTable.new ops) v = some e →
      e.value = some v ∧ e.deleted = false) ∧
    (MemTable.scan (applyOps MemTable.new ops) v = none ↔
      ∀ e ∈ (applyOps MemTable.new ops).entries, e.value ≠ some v) := by
  have hfind : MemTable.scan (applyOps MemTable.new ops) v =
      (applyOps MemTable.new ops).entries.find? (fun e => e.value == some v) :=
    scanLoop_eq_find? _ v
  refine ⟨sorted_applyOps MemTable.new ops List.Pairwise.nil, hfind, ?_, ?_⟩
  · intro e he
    rw [hfind] at he
    have hv : e.value = some v := by
      have := List.find?_some he
      simpa using this
    refine ⟨hv, ?_⟩
    have hmem := List.mem_of_find?_eq_some he
    have hflag := flagsOk_applyOps MemTable.new ops (by intro e' he'; simp [MemTable.new] at he') e hmem
    cases hd : e.deleted
    · rfl
    · rw [hflag.mp hd] at hv
      exact absurd hv (by simp)
  · rw [hfind, List.find?_eq_none]
    constructor
    · intro h e hmem hv
      exact (h e hmem) (by rw [hv]; simp)
    · intro h e hmem
      simp only [beq_iff_eq]
      exact h e hmem

/-- Witness for `C9_scan`: over the three-entry example table, `scan(Party)`
returns the Friday record and `scan(Blues)` reports absence. -/
theorem C9_scan_witness :
    ((⟨kFriday, some vParty, 21, false⟩ : MemTableEntry).value = some vParty ∧
      (⟨kFriday, some vParty, 21, false⟩ : MemTableEntry).deleted = false) ∧
    (∀ e ∈ (applyOps MemTable.new [.setOp kMonday vRejoice 0, .setOp kTuesday vCelebrate 10,
        .setOp kFriday vParty 21]).entries, e.value ≠ some vBlues) :=
  ⟨(C9_scan [.setOp kMonday vRejoice 0, .setOp kTuesday vCelebrate 10,
      .setOp kFriday vParty 21] vParty).2.2.1 ⟨kFriday, some vParty, 21, false⟩ (by decide),
   (C9_scan [.setOp kMonday vRejoice 0, .setOp kTuesday vCelebrate 10,
      .setOp kFriday vParty 21] vBlues).2.2.2.mp (by decide)⟩

/-! ## The durability log: binary encoding (wal.rs) and decoding (wal_iterator.rs) -/

/-- Little-endian byte encoding of `n` on `w` bytes (`to_le_bytes` of the
`w`-byte machine integer holding `n`). -/
def toLeBytes (n : Nat) : Nat → List Nat
  | 0 => []
  | w + 1 => n % 256 :: toLeBytes (n / 256) w

/-- Little-endian decoding of a byte list (`usize::from_le_bytes`,
`u128::from_le_bytes`); bytes of a real file are below 256. -/
def fromLeBytes : List Nat → Nat
  | [] => 0
  | b :: bs => b + 256 * fromLeBytes bs

/-- `WALEntry` (wal_iterator.rs): mirror of the table entry shape. -/
structure WALEntry where
  key : List Nat
  value : Option (List Nat)
  timestamp : Nat
  deleted : Bool
deriving DecidableEq, Repr

/-- The bytes of one set record, in the order of the six `write_all` calls of
`WAL::set`: key length (8 bytes), `false as u8` (one byte `0`), value length
(8 bytes), key, value, timestamp (16 bytes). -/
def setRecord (key value : List Nat) (timestamp : Nat) : List Nat :=
  toLeBytes key.length 8 ++ toLeBytes 0 1 ++ toLeBytes value.length 8 ++
    key ++ value ++ toLeBytes timestamp 16

/-- The bytes of one delete record, in the order of the four `write_all`
calls of `WAL::delete`: key length, `true as u8` (one byte `1`), key,
timestamp. -/
def deleteRecord (key : List Nat) (timestamp : Nat) : List Nat :=
  toLeBytes key.length 8 ++ toLeBytes 1 1 ++ key ++ toLeBytes timestamp 16

namespace WAL

/-- `WAL::set`: append one set record to the buffered writer, modelled as the
byte list written so far. -/
def set (w : List Nat) (key value : List Nat) (timestamp : Nat) : List Nat :=
  w ++ setRecord key value timestamp

/-- `WAL::delete`: append one delete record. -/
def delete (w : List Nat) (key : List Nat) (timestamp : Nat) : List Nat :=
  w ++ deleteRecord key timestamp

end WAL

/-- One logged operation: the argument list of a `WAL::set` or `WAL::delete`
call. -/
inductive WalOp where
  | setOp (key value : List Nat) (timestamp : Nat)
  | delOp (key : List Nat) (timestamp : Nat)
deriving DecidableEq, Repr

/-- Append one operation's record to the log. -/
def logOp (w : List Nat) : WalOp → List Nat
  | .setOp k v ts => WAL.set w k v ts
  | .delOp k ts => WAL.delete w k ts

/-- Append a sequence of operations to the log in order. -/
def logOps (w : List Nat) (ops : List WalOp) : List Nat := ops.foldl logOp w

/-- The record bytes of one operation. -/
def opRecord : WalOp → List Nat
  | .setOp k v ts => setRecord k v ts
  | .delOp k ts => deleteRecord k ts

/-- The entry the decoder should reproduce for one operation. -/
def opEntry : WalOp → WALEntry
  | .setOp k v ts => ⟨k, some v, ts, false⟩
  | .delOp k ts => ⟨k, none, ts, true⟩

/-- Field widths fit their machine integers: `usize` key/value lengths and the
`u128` timestamp. -/
def opBounds : WalOp → Bool
  | .setOp k v ts =>
    decide (k.length < 2 ^ 64) && decide (v.length < 2 ^ 64) && decide (ts < 2 ^ 128)
  | .delOp k ts => decide (k.length < 2 ^ 64) && decide (ts < 2 ^ 128)

/-- `BufReader::read_exact` into a buffer of `n` bytes: succeeds with exactly
`n` bytes and the remaining stream, or fails (short read / `ErrorKind` from
the underlying reader) leaving the decoder to report end-of-sequence. -/
def readExact (n : Nat) (s : List Nat) : Option (List Nat × List Nat) :=
  if n ≤ s.length then some (s.take n, s.drop n) else none

namespace WALIterator

/-- `WALIterator::next` (wal_iterator.rs): read key length (8 bytes), the
tombstone byte, then — for a tombstone — key and timestamp, otherwise value
length (8 bytes), key, value and timestamp.  Any failed read yields `none`,
indistinguishable from clean end-of-file. -/
def next (s : List Nat) : Option (WALEntry × List Nat) :=
  match readExact 8 s with
  | none => none
  | some (len_buffer, s1) =>
    let key_len := fromLeBytes len_buffer
    match readExact 1 s1 with
    | none => none
    | some (bool_buffer, s2) =>
      let deleted := bool_buffer.headD 0 != 0
      if deleted then
        match readExact key_len s2 with
        | none => none
        | some (key, s3) =>
          match readExact 16 s3 with
          | none => none
          | some (ts_buffer, s4) =>
            some (⟨key, none, fromLeBytes ts_buffer, true⟩, s4)
      else
        match readExact 8 s2 with
        | none => none
        | some (vlen_buffer, s3) =>
          let value_len := fromLeBytes vlen_buffer
          match readExact key_len s3 with
          | none => none
          | some (key, s4) =>
            match readExact value_len s4 with
            | none => none
            | some (value, s5) =>
              match readExact 16 s5 with
              | none => none
              | some (ts_buffer, s6) =>
                some (⟨key, some value, fromLeBytes ts_buffer, false⟩, s6)

end WALIterator

/-- Iterating the decoder with explicit fuel; `decodeAll` instantiates the
fuel with the stream length, which suffices because every decoded record
consumes at least one byte. -/
def decodeList (fuel : Nat) (s : List Nat) : List WALEntry :=
  match fuel with
  | 0 => []
  | fuel + 1 =>
    match WALIterator.next s with
    | none => []
    | some (e, rest) => e :: decodeList fuel rest

/-- The full entry sequence produced by a `WALIterator` over the stream: pull
records until `next` reports end-of-sequence. -/
def decodeAll (s : List Nat) : List WALEntry := decodeList s.length s

/-! ## Basic facts about the byte-level readers -/

theorem length_toLeBytes (n : Nat) : ∀ w : Nat, (toLeBytes n w).length = w := by
  intro w
  induction w generalizing n with
  | zero => rfl
  | succ w ih => simp [toLeBytes, ih]

theorem fromLeBytes_toLeBytes : ∀ (w n : Nat), n < 256 ^ w →
    fromLeBytes (toLeBytes n w) = n := by
  intro w
  induction w with
  | zero =>
    intro n h
    simp [Nat.pow_zero] at h
    simp [h, toLeBytes, fromLeBytes]
  | succ w ih =>
    intro n h
    rw [toLeBytes, fromLeBytes, ih (n / 256) (by
      have : 256 ^ (w + 1) = 256 ^ w * 256 := by ring
      rw [this] at h
      exact Nat.div_lt_of_lt_mul (by omega))]
    omega

theorem readExact_some_facts {n : Nat} {s b r : List Nat}
    (h : readExact n s = some (b, r)) : n ≤ s.length ∧ b = s.take n ∧ r = s.drop n := by
  unfold readExact at h
  split at h
  · rename_i hle
    cases h
    exact ⟨hle, rfl, rfl⟩
  · exact absurd h (by simp)

theorem readExact_rest_le {n : Nat} {s b r : List Nat}
    (h : readExact n s = some (b, r)) : r.length ≤ s.length := by
  obtain ⟨hle, -, hr⟩ := readExact_some_facts h
  rw [hr, List.length_drop]
  omega

theorem readExact_append {l r : List Nat} {n : Nat} (hl : l.length = n) :
    readExact n (l ++ r) = some (l, r) := by
  unfold readExact
  rw [if_pos (by rw [List.length_append]; omega)]
  rw [List.take_left' hl, List.drop_left' hl]

theorem readExact_toLeBytes (n w : Nat) (r : List Nat) :
    readExact w (toLeBytes n w ++ r) = some (toLeBytes n w, r) :=
  readExact_append (length_toLeBytes n w)

theorem readExact_self (l r : List Nat) : readExact l.length (l ++ r) = some (l, r) :=
  readExact_append rfl

theorem readExact_take_short {x : List Nat} {n m : Nat} (h : m < n) :
    readExact n (x.take m) = none := by
  unfold readExact
  rw [if_neg]
  intro hc
  have h1 : (x.take m).length ≤ m := by
    rw [List.length_take]
    exact Nat.min_le_left _ _
  omega

theorem take_append_expand (l r : List Nat) {n m : Nat} (hl : l.length = n) (h : n ≤ m) :
    (l ++ r).take m = l ++ r.take (m - n) := by
  rw [List.take_append_eq_append_take,
    List.take_of_length_le (le_trans (le_of_eq hl) h), hl]

/-! ## The decoder pulls records off the front of the stream -/

theorem next_rest_lt {s : List Nat} {e : WALEntry} {rest : List Nat}
    (h : WALIterator.next s = some (e, rest)) : rest.length < s.length := by
  simp only [WALIterator.next] at h
  split at h
  · exact absurd h (by simp)
  · rename_i len_buffer s1 h1
    obtain ⟨h1le, -, h1r⟩ := readExact_some_facts h1
    have h1l : s1.length = s.length - 8 := by rw [h1r, List.length_drop]
    split at h
    · exact absurd h (by simp)
    · rename_i bool_buffer s2 h2
      have h2l := readExact_rest_le h2
      split at h
      · split at h
        · exact absurd h (by simp)
        · rename_i key s3 h3
          have h3l := readExact_rest_le h3
          split at h
          · exact absurd h (by simp)
          · rename_i tsb s4 h4
            have h4l := readExact_rest_le h4
            cases h
            omega
      · split at h
        · exact absurd h (by simp)
        · rename_i vlen_buffer s3 h3
          have h3l := readExact_rest_le h3
          split at h
          · exact absurd h (by simp)
          · rename_i key s4 h4
            have h4l := readExact_rest_le h4
            split at h
            · exact absurd h (by simp)
            · rename_i value s5 h5
              have h5l := readExact_rest_le h5
              split at h
              · exact absurd h (by simp)
              · rename_i tsb s6 h6
                have h6l := readExact_rest_le h6
                cases h
                omega

theorem decodeList_congr : ∀ (fuel fuel' : Nat) (s : List Nat),
    s.length ≤ fuel → s.length ≤ fuel' → decodeList fuel s = decodeList fuel' s := by
  intro fuel
  induction fuel with
  | zero =>
    intro fuel' s h h'
    have hs : s = [] := List.eq_nil_of_length_eq_zero (Nat.le_zero.mp h)
    subst hs
    cases fuel' with
    | zero => rfl
    | succ f =>
      show ([] : List WALEntry) = decodeList (f + 1) []
      rw [decodeList]
      rfl
  | succ fuel ih =>
    intro fuel' s h h'
    cases fuel' with
    | zero =>
      have hs : s = [] := List.eq_nil_of_length_eq_zero (Nat.le_zero.mp h')
      subst hs
      rw [decodeList]
      rfl
    | succ fuel'' =>
      rw [decodeList, decodeList]
      cases hn : WALIterator.next s with
      | none => rfl
      | some er =>
        obtain ⟨e, rest⟩ := er
        have hlt := next_rest_lt hn
        exact congrArg (e :: ·) (ih fuel'' rest (by omega) (by omega))

theorem decodeAll_eq (s : List Nat) :
    decodeAll s = match WALIterator.next s with
                  | none => []
                  | some (e, rest) => e :: decodeAll rest := by
  unfold decodeAll
  cases hn : WALIterator.next s with
  | none =>
    cases hs : s.length with
    | zero => rw [decodeList]
    | succ m => rw [decodeList, hn]
  | some er =>
    obtain ⟨e, rest⟩ := er
    have hlt := next_rest_lt hn
    cases hs : s.length with
    | zero => omega
    | succ m =>
      rw [decodeList, hn]
      exact congrArg (e :: ·) (decodeList_congr m rest.length rest (by omega) le_rfl)

/-! ## Round trip: decoding a freshly written record -/

theorem headD_toLeBytes_zero : ((toLeBytes 0 1).headD 0 != 0) = false := rfl

theorem headD_toLeBytes_one : ((toLeBytes 1 1).headD 0 != 0) = true := rfl

theorem next_setRecord (k v : List Nat) (ts : Nat) (rest : List Nat)
    (hk : k.length < 2 ^ 64) (hv : v.length < 2 ^ 64) (hts : ts < 2 ^ 128) :
    WALIterator.next (setRecord k v ts ++ rest) = some (⟨k, some v, ts, false⟩, rest) := by
  have hk' : fromLeBytes (toLeBytes k.length 8) = k.length :=
    fromLeBytes_toLeBytes 8 k.length (by norm_num at hk ⊢; omega)
  have hv' : fromLeBytes (toLeBytes v.length 8) = v.length :=
    fromLeBytes_toLeBytes 8 v.length (by norm_num at hv ⊢; omega)
  have hts' : fromLeBytes (toLeBytes ts 16) = ts :=
    fromLeBytes_toLeBytes 16 ts (by norm_num at hts ⊢; omega)
  simp only [setRecord, List.append_assoc]
  simp only [WALIterator.next, readExact_toLeBytes, hk', hv', hts',
    headD_toLeBytes_zero, Bool.false_eq_true, if_false, readExact_self]

set_option maxHeartbeats 1000000 in
theorem next_deleteRecord (k : List Nat) (ts : Nat) (rest : List Nat)
    (hk : k.length < 2 ^ 64) (hts : ts < 2 ^ 128) :
    WALIterator.next (deleteRecord k ts ++ rest) = some (⟨k, none, ts, true⟩, rest) := by
  have hk' : fromLeBytes (toLeBytes k.length 8) = k.length :=
    fromLeBytes_toLeBytes 8 k.length (by norm_num at hk ⊢; omega)
  have hts' : fromLeBytes (toLeBytes ts 16) = ts :=
    fromLeBytes_toLeBytes 16 ts (by norm_num at hts ⊢; omega)
  simp only [deleteRecord, List.append_assoc]
  simp only [WALIterator.next, readExact_toLeBytes, hk', hts',
    headD_toLeBytes_one, if_true, eq_self_iff_true, readExact_self]

/-! ## Decoding a log written by a sequence of operations -/

theorem logOp_eq (w : List Nat) (op : WalOp) : logOp w op = w ++ opRecord op := by
  cases op <;> rfl

theorem logOps_eq (w : List Nat) (ops : List WalOp) :
    logOps w ops = w ++ (ops.map opRecord).flatten := by
  induction ops generalizing w with
  | nil => simp [logOps]
  | cons op rest ih =>
    show logOps (logOp w op) rest = _
    rw [ih, logOp_eq]
    simp [List.append_assoc]

theorem next_opRecord (op : WalOp) (rest : List Nat) (h : opBounds op = true) :
    WALIterator.next (opRecord op ++ rest) = some (opEntry op, rest) := by
  cases op with
  | setOp k v ts =>
    simp only [opBounds, Bool.and_eq_true, decide_eq_true_eq] at h
    exact next_setRecord k v ts rest h.1.1 h.1.2 h.2
  | delOp k ts =>
    simp only [opBounds, Bool.and_eq_true, decide_eq_true_eq] at h
    exact next_deleteRecord k ts rest h.1 h.2

theorem decodeAll_records (ops : List WalOp) (tail : List Nat)
    (h : ∀ op ∈ ops, opBounds op = true) :
    decodeAll ((ops.map opRecord).flatten ++ tail) = ops.map opEntry ++ decodeAll tail := by
  induction ops with
  | nil => simp
  | cons op rest ih =>
    simp only [List.map_cons, List.flatten_cons, List.append_assoc]
    rw [decodeAll_eq, next_opRecord op _ (h op (List.mem_cons_self op rest))]
    show opEntry op :: decodeAll ((rest.map opRecord).flatten ++ tail) = _
    rw [ih (fun op' h' => h op' (List.mem_cons_of_mem _ h'))]
    rfl

/-! ## Claim C3: encode/decode round trip -/

/-- **C3**: serializing any finite sequence of `set`/`delete` operations
through the log writer and decoding the resulting byte stream yields exactly
one entry per operation, in order, with identical key, value (`some` for a
set, `none` for a delete), timestamp and deleted fields.  The bounds
hypothesis says each length fits `usize` and each timestamp fits `u128`. -/
theorem C3_roundtrip (ops : List WalOp) (h : ∀ op ∈ ops, opBounds op = true) :
    decodeAll (logOps [] ops) = ops.map opEntry := by
  rw [logOps_eq, List.nil_append, ← List.append_nil ((ops.map opRecord).flatten),
    decodeAll_records ops [] h]
  simp [decodeAll, decodeList]

/-- Witness for `C3_roundtrip` on a three-operation log (including an empty
key/value pair). -/
theorem C3_roundtrip_witness :
    decodeAll (logOps [] [.setOp [1, 2] [3] 7, .delOp [1, 2] 9, .setOp [] [] 0]) =
      [⟨[1, 2], some [3], 7, false⟩, ⟨[1, 2], none, 9, true⟩, ⟨[], some [], 0, false⟩] :=
  (C3_roundtrip [.setOp [1, 2] [3] 7, .delOp [1, 2] 9, .setOp [] [] 0] (by decide)).trans rfl

/-! ## Claim C10: decoded entries pair `deleted` with `value = none` -/

theorem next_flag {s : List Nat} {e : WALEntry} {rest : List Nat}
    (h : WALIterator.next s = some (e, rest)) : e.deleted = true ↔ e.value = none := by
  simp only [WALIterator.next] at h
  split at h
  · exact absurd h (by simp)
  · split at h
    · exact absurd h (by simp)
    · split at h
      · split at h
        · exact absurd h (by simp)
        · split at h
          · exact absurd h (by simp)
          · cases h
            simp
      · split at h
        · exact absurd h (by simp)
        · split at h
          · exact absurd h (by simp)
          · split at h
            · exact absurd h (by simp)
            · split at h
              · exact absurd h (by simp)
              · cases h
                simp

theorem decodeList_flag : ∀ (fuel : Nat) (s : List Nat) (e : WALEntry),
    e ∈ decodeList fuel s → (e.deleted = true ↔ e.value = none) := by
  intro fuel
  induction fuel with
  | zero =>
    intro s e h
    rw [decodeList] at h
    exact absurd h (by simp)
  | succ fuel ih =>
    intro s e h
    rw [decodeList] at h
    rcases hn : WALIterator.next s with - | ⟨e', rest⟩
    · rw [hn] at h
      exact absurd h (by simp)
    · rw [hn] at h
      rcases List.mem_cons.mp h with rfl | hm
      · exact next_flag hn
      · exact ih rest e hm

/-- **C10**: for every input byte stream, every entry the decoder yields has
`deleted = true` exactly when `value = none`: a decoded tombstone never
carries a value, and a decoded non-tombstone always carries `some` value
(possibly zero-length). -/
theorem C10_tombstone_iff (s : List Nat) (e : WALEntry) (h : e ∈ decodeAll s) :
    e.deleted = true ↔ e.value = none :=
  decodeList_flag s.length s e h

/-- Witness for `C10_tombstone_iff` on a concrete one-record stream. -/
theorem C10_tombstone_iff_witness :
    ((⟨[5], none, 3, true⟩ : WALEntry).deleted = true ↔
      (⟨[5], none, 3, true⟩ : WALEntry).value = none) :=
  C10_tombstone_iff (deleteRecord [5] 3) ⟨[5], none, 3, true⟩ (by decide)

/-! ## Claim C4: truncated trailing record -/

theorem length_setRecord (k v : List Nat) (ts : Nat) :
    (setRecord k v ts).length = 33 + k.length + v.length := by
  simp [setRecord, length_toLeBytes]
  omega

theorem length_deleteRecord (k : List Nat) (ts : Nat) :
    (deleteRecord k ts).length = 25 + k.length := by
  simp [deleteRecord, length_toLeBytes]
  omega

set_option maxHeartbeats 2000000 in
theorem next_take_setRecord (k v : List Nat) (ts : Nat) (m : Nat)
    (hk : k.length < 2 ^ 64) (hv : v.length < 2 ^ 64)
    (hm : m < 33 + k.length + v.length) :
    WALIterator.next ((setRecord k v ts).take m) = none := by
  have hk' : fromLeBytes (toLeBytes k.length 8) = k.length :=
    fromLeBytes_toLeBytes 8 k.length (by norm_num at hk ⊢; omega)
  have hv' : fromLeBytes (toLeBytes v.length 8) = v.length :=
    fromLeBytes_toLeBytes 8 v.length (by norm_num at hv ⊢; omega)
  by_cases h1 : m < 8
  · simp only [WALIterator.next, readExact_take_short h1]
  · by_cases h2 : m < 9
    · have hs : (setRecord k v ts).take m = toLeBytes k.length 8 ++
          ((toLeBytes 0 1 ++ (toLeBytes v.length 8 ++
            (k ++ (v ++ toLeBytes ts 16)))).take (m - 8)) := by
        unfold setRecord
        simp only [List.append_assoc]
        rw [take_append_expand (toLeBytes k.length 8) _ (length_toLeBytes _ 8) (by omega)]
      rw [hs]
      simp only [WALIterator.next, readExact_toLeBytes, hk',
        readExact_take_short (show m - 8 < 1 by omega)]
    · by_cases h3 : m < 17
      · have hs : (setRecord k v ts).take m = toLeBytes k.length 8 ++
            (toLeBytes 0 1 ++ ((toLeBytes v.length 8 ++
              (k ++ (v ++ toLeBytes ts 16))).take (m - 8 - 1))) := by
          unfold setRecord
          simp only [List.append_assoc]
          rw [take_append_expand (toLeBytes k.length 8) _ (length_toLeBytes _ 8) (by omega),
            take_append_expand (toLeBytes 0 1) _ (length_toLeBytes _ 1) (by omega)]
        rw [hs]
        simp only [WALIterator.next, readExact_toLeBytes, hk',
          headD_toLeBytes_zero, Bool.false_eq_true, if_false,
          readExact_take_short (show m - 8 - 1 < 8 by omega)]
      · by_cases h4 : m < 17 + k.length
        · have hs : (setRecord k v ts).take m = toLeBytes k.length 8 ++
              (toLeBytes 0 1 ++ (toLeBytes v.length 8 ++
                ((k ++ (v ++ toLeBytes ts 16)).take (m - 8 - 1 - 8)))) := by
            unfold setRecord
            simp only [List.append_assoc]
            rw [take_append_expand (toLeBytes k.length 8) _ (length_toLeBytes _ 8) (by omega),
              take_append_expand (toLeBytes 0 1) _ (length_toLeBytes _ 1) (by omega),
              take_append_expand (toLeBytes v.length 8) _ (length_toLeBytes _ 8) (by omega)]
          rw [hs]
          simp only [WALIterator.next, readExact_toLeBytes, hk', hv',
            headD_toLeBytes_zero, Bool.false_eq_true, if_false,
            readExact_take_short (show m - 8 - 1 - 8 < k.length by omega)]
        · by_cases h5 : m < 17 + k.length + v.length
          · have hs : (setRecord k v ts).take m = toLeBytes k.length 8 ++
                (toLeBytes 0 1 ++ (toLeBytes v.length 8 ++
                  (k ++ ((v ++ toLeBytes ts 16).take (m - 8 - 1 - 8 - k.length))))) := by
              unfold setRecord
              simp only [List.append_assoc]
              rw [take_append_expand (toLeBytes k.length 8) _ (length_toLeBytes _ 8) (by omega),
                take_append_expand (toLeBytes 0 1) _ (length_toLeBytes _ 1) (by omega),
                take_append_expand (toLeBytes v.length 8) _ (length_toLeBytes _ 8) (by omega),
                take_append_expand k _ rfl (by omega)]
            rw [hs]
            simp only [WALIterator.next, readExact_toLeBytes, hk', hv',
              headD_toLeBytes_zero, Bool.false_eq_true, if_false, readExact_self,
              readExact_take_short (show m - 8 - 1 - 8 - k.length < v.length by omega)]
          · have hs : (setRecord k v ts).take m = toLeBytes k.length 8 ++
                (toLeBytes 0 1 ++ (toLeBytes v.length 8 ++
                  (k ++ (v ++ ((toLeBytes ts 16).take
                    (m - 8 - 1 - 8 - k.length - v.length)))))) := by
              unfold setRecord
              simp only [List.append_assoc]
              rw [take_append_expand (toLeBytes k.length 8) _ (length_toLeBytes _ 8) (by omega),
                take_append_expand (toLeBytes 0 1) _ (length_toLeBytes _ 1) (by omega),
                take_append_expand (toLeBytes v.length 8) _ (length_toLeBytes _ 8) (by omega),
                take_append_expand k _ rfl (by omega),
                take_append_expand v _ rfl (by omega)]
            rw [hs]
            simp only [WALIterator.next, readExact_toLeBytes, hk', hv',
              headD_toLeBytes_zero, Bool.false_eq_true, if_false, readExact_self,
              readExact_take_short
                (show m - 8 - 1 - 8 - k.length - v.length < 16 by omega)]

set_option maxHeartbeats 2000000 in
theorem next_take_deleteRecord (k : List Nat) (ts : Nat) (m : Nat)
    (hk : k.length < 2 ^ 64) (hm : m < 25 + k.length) :
    WALIterator.next ((deleteRecord k ts).take m) = none := by
  have hk' : fromLeBytes (toLeBytes k.length 8) = k.length :=
    fromLeBytes_toLeBytes 8 k.length (by norm_num at hk ⊢; omega)
  by_cases h1 : m < 8
  · simp only [WALIterator.next, readExact_take_short h1]
  · by_cases h2 : m < 9
    · have hs : (deleteRecord k ts).take m = toLeBytes k.length 8 ++
          ((toLeBytes 1 1 ++ (k ++ toLeBytes ts 16)).take (m - 8)) := by
        unfold deleteRecord
        simp only [List.append_assoc]
        rw [take_append_expand (toLeBytes k.length 8) _ (length_toLeBytes _ 8) (by omega)]
      rw [hs]
      simp only [WALIterator.next, readExact_toLeBytes, hk',
        readExact_take_short (show m - 8 < 1 by omega)]
    · by_cases h3 : m < 9 + k.length
      · have hs : (deleteRecord k ts).take m = toLeBytes k.length 8 ++
            (toLeBytes 1 1 ++ ((k ++ toLeBytes ts 16).take (m - 8 - 1))) := by
          unfold deleteRecord
          simp only [List.append_assoc]
          rw [take_append_expand (toLeBytes k.length 8) _ (length_toLeBytes _ 8) (by omega),
            take_append_expand (toLeBytes 1 1) _ (length_toLeBytes _ 1) (by omega)]
        rw [hs]
        simp only [WALIterator.next, readExact_toLeBytes, hk',
          headD_toLeBytes_one, if_true, eq_self_iff_true,
          readExact_take_short (show m - 8 - 1 < k.length by omega)]
      · have hs : (deleteRecord k ts).take m = toLeBytes k.length 8 ++
            (toLeBytes 1 1 ++ (k ++ ((toLeBytes ts 16).take (m - 8 - 1 - k.length)))) := by
          unfold deleteRecord
          simp only [List.append_assoc]
          rw [take_append_expand (toLeBytes k.length 8) _ (length_toLeBytes _ 8) (by omega),
            take_append_expand (toLeBytes 1 1) _ (length_toLeBytes _ 1) (by omega),
            take_append_expand k _ rfl (by omega)]
        rw [hs]
        simp only [WALIterator.next, readExact_toLeBytes, hk',
          headD_toLeBytes_one, if_true, eq_self_iff_true, readExact_self,
          readExact_take_short (show m - 8 - 1 - k.length < 16 by omega)]

theorem next_take_opRecord (op : WalOp) (m : Nat) (hb : opBounds op = true)
    (hm : m < (opRecord op).length) :
    WALIterator.next ((opRecord op).take m) = none := by
  cases op with
  | setOp k v ts =>
    simp only [opBounds, Bool.and_eq_true, decide_eq_true_eq] at hb
    rw [opRecord] at hm ⊢
    rw [length_setRecord] at hm
    exact next_take_setRecord k v ts m hb.1.1 hb.1.2 hm
  | delOp k ts =>
    simp only [opBounds, Bool.and_eq_true, decide_eq_true_eq] at hb
    rw [opRecord] at hm ⊢
    rw [length_deleteRecord] at hm
    exact next_take_deleteRecord k ts m hb.1 hm

/-- **C4**: for every stream made of the well-formed encodings of `n`
operations followed by a strict (possibly empty) front part of one further
encoded record, the decoder yields exactly the `n` complete entries and then
reports end-of-sequence.  In the embedding every failed read — at whichever
field of the cut-off trailing record — is `none` from `readExact`, which
`next` turns into the same end-of-sequence signal as a clean end-of-file, so
no error is ever surfaced. -/
theorem C4_truncated_tail (ops : List WalOp) (op : WalOp) (m : Nat)
    (h : ∀ op' ∈ ops, opBounds op' = true) (hop : opBounds op = true)
    (hm : m < (opRecord op).length) :
    decodeAll (logOps [] ops ++ (opRecord op).take m) = ops.map opEntry := by
  rw [logOps_eq, List.nil_append, decodeAll_records ops _ h, decodeAll_eq,
    next_take_opRecord op m hop hm]
  simp

/-- Witness for `C4_truncated_tail`: one complete set record followed by the
first ten bytes of a delete record decodes to exactly the set entry. -/
theorem C4_truncated_tail_witness :
    decodeAll (logOps [] [.setOp [1] [2] 3] ++ (opRecord (.delOp [4] 5)).take 10) =
      [⟨[1], some [2], 3, false⟩] :=
  (C4_truncated_tail [.setOp [1] [2] 3] (.delOp [4] 5) 10
    (by decide) (by decide) (by decide)).trans rfl

/-! ## Recovery: `WAL::from_dir` (wal.rs)

A directory is an association list of (file name bytes, file content bytes);
`files_with_ext` returns the log files of the directory in unspecified order,
and names within one directory are distinct.  `WAL::new` derives the new
log's name from the clock; the model takes that fresh name as an argument. -/

/-- One step of insertion sort by byte-wise file-name order. -/
def insertFile (f : List Nat × List Nat) :
    List (List Nat × List Nat) → List (List Nat × List Nat)
  | [] => [f]
  | g :: gs => if bytesLe f.1 g.1 then f :: g :: gs else g :: insertFile f gs

/-- `wal_files.sort()`: for paths in a single directory, `PathBuf` order is
byte-wise name order; file names are distinct, so any comparison sort
computes this same list. -/
def sortFiles : List (List Nat × List Nat) → List (List Nat × List Nat)
  | [] => []
  | f :: fs => insertFile f (sortFiles fs)

/-- The table half of the entry loop of `WAL::from_dir`: `delete` for a
tombstone, otherwise `set` with the entry's unwrapped value.  Decoder output
always pairs `deleted = false` with `some` value (`C10_tombstone_iff`), so
the `getD` default never shows through for decoded entries. -/
def applyEntryTable (t : MemTable) (e : WALEntry) : MemTable :=
  if e.deleted then t.delete e.key e.timestamp
  else t.set e.key (e.value.getD []) e.timestamp

/-- The log half of the entry loop of `WAL::from_dir`: re-append the entry to
the new log. -/
def appendEntryWal (w : List Nat) (e : WALEntry) : List Nat :=
  if e.deleted then WAL.delete w e.key e.timestamp
  else WAL.set w e.key (e.value.getD []) e.timestamp

/-- The record bytes `appendEntryWal` appends for one entry. -/
def entryRecord (e : WALEntry) : List Nat :=
  if e.deleted then deleteRecord e.key e.timestamp
  else setRecord e.key (e.value.getD []) e.timestamp

/-- Both halves of the entry loop of `WAL::from_dir` together. -/
def replayEntry (acc : List Nat × MemTable) (e : WALEntry) : List Nat × MemTable :=
  if e.deleted then
    (WAL.delete acc.1 e.key e.timestamp, acc.2.delete e.key e.timestamp)
  else
    (WAL.set acc.1 e.key (e.value.getD []) e.timestamp,
      acc.2.set e.key (e.value.getD []) e.timestamp)

/-- Replay one opened log file through its decoder (`for entry in
wal.into_iter()`). -/
def replayFile (acc : List Nat × MemTable) (content : List Nat) :
    List Nat × MemTable :=
  (decodeAll content).foldl replayEntry acc

/-- `remove_file`: drop the file at the given path from the directory. -/
def removeFile (d : List (List Nat × List Nat)) (name : List Nat) :
    List (List Nat × List Nat) :=
  d.filter (fun f => !(f.1 == name))

/-- `WAL::from_dir` with every I/O operation succeeding: list the log files,
sort by name, create the fresh empty log `newName`, replay every file in
sorted order entry by entry into the new table and the new log, flush, delete
the old files.  Returns the directory contents afterwards, the consolidated
log's bytes, and the rebuilt table. -/
def from_dir (files : List (List Nat × List Nat)) (newName : List Nat) :
    List (List Nat × List Nat) × List Nat × MemTable :=
  let wal_files := sortFiles files
  let res := wal_files.foldl (fun acc f => replayFile acc f.2) ([], MemTable.new)
  let dirAfter :=
    (wal_files.map Prod.fst).foldl removeFile (files ++ [(newName, res.1)])
  (dirAfter, res.1, res.2)

/-- Spec side, from the claim's words: every file's records, files taken in
ascending filename order and records within each file in file order. -/
def allEntries (files : List (List Nat × List Nat)) : List WALEntry :=
  ((sortFiles files).map (fun f => decodeAll f.2)).flatten

/-- Spec side, from the claim's words: the table obtained by applying every
replayed record to a fresh table, later records overwriting earlier ones. -/
def replayedTable (files : List (List Nat × List Nat)) : MemTable :=
  (allEntries files).foldl applyEntryTable MemTable.new

/-- The content of a real log file: every byte is below 256. -/
def isBytes (s : List Nat) : Bool := s.all (fun b => decide (b < 256))

/-- Field widths of one entry fit their machine integers. -/
def entryBounds (e : WALEntry) : Bool :=
  decide (e.key.length < 2 ^ 64) &&
    (match e.value with
     | some v => decide (v.length < 2 ^ 64)
     | none => true) &&
    decide (e.timestamp < 2 ^ 128)

/-! ## The sort by file name -/

theorem bytesLe_trans {a b c : List Nat} (hab : bytesLe a b = true)
    (hbc : bytesLe b c = true) : bytesLe a c = true := by
  unfold bytesLe at hab hbc ⊢
  rw [Bool.not_eq_true'] at hab hbc ⊢
  cases hca : bytesLt c a
  · rfl
  · exfalso
    cases hampb : bytesLt a b with
    | true =>
      have := bytesLt_trans hca hampb
      rw [this] at hbc
      exact Bool.noConfusion hbc
    | false =>
      have hab' : a = b := bytesLt_connex hampb hab
      subst hab'
      rw [hca] at hbc
      exact Bool.noConfusion hbc

theorem bytesLe_of_not_bytesLe {a b : List Nat} (h : bytesLe a b = false) :
    bytesLe b a = true := by
  unfold bytesLe at h ⊢
  rw [Bool.not_eq_false'] at h
  rw [Bool.not_eq_true']
  exact bytesLt_asymm h

theorem mem_insertFile {x f : List Nat × List Nat} :
    ∀ {l : List (List Nat × List Nat)}, x ∈ insertFile f l ↔ x = f ∨ x ∈ l := by
  intro l
  induction l with
  | nil => simp [insertFile]
  | cons g gs ih =>
    rw [insertFile]
    split
    · simp
    · rw [List.mem_cons, List.mem_cons, ih]
      tauto

theorem insertFile_perm (f : List Nat × List Nat) :
    ∀ l : List (List Nat × List Nat), (insertFile f l).Perm (f :: l) := by
  intro l
  induction l with
  | nil => exact List.Perm.refl _
  | cons g gs ih =>
    rw [insertFile]
    split
    · exact List.Perm.refl _
    · exact (List.Perm.cons g ih).trans (List.Perm.swap f g gs)

theorem sortFiles_perm : ∀ l : List (List Nat × List Nat), (sortFiles l).Perm l := by
  intro l
  induction l with
  | nil => exact List.Perm.refl _
  | cons f fs ih =>
    rw [sortFiles]
    exact (insertFile_perm f (sortFiles fs)).trans (List.Perm.cons f ih)

theorem pairwise_insertFile {f : List Nat × List Nat} :
    ∀ {l : List (List Nat × List Nat)},
      l.Pairwise (fun a b => bytesLe a.1 b.1 = true) →
      (insertFile f l).Pairwise (fun a b => bytesLe a.1 b.1 = true) := by
  intro l
  induction l with
  | nil =>
    intro _
    simp [insertFile]
  | cons g gs ih =>
    intro h
    rcases h with - | ⟨hg, hgs⟩
    rw [insertFile]
    split
    · rename_i hfg
      refine List.Pairwise.cons ?_ (List.Pairwise.cons hg hgs)
      intro b hb
      rcases List.mem_cons.mp hb with rfl | hbs
      · exact hfg
      · exact bytesLe_trans hfg (hg b hbs)
    · rename_i hfg
      have hgf : bytesLe g.1 f.1 = true :=
        bytesLe_of_not_bytesLe (Bool.of_not_eq_true hfg)
      refine List.Pairwise.cons ?_ (ih hgs)
      intro b hb
      rcases mem_insertFile.mp hb with rfl | hbs
      · exact hgf
      · exact hg b hbs

theorem sortFiles_sorted : ∀ l : List (List Nat × List Nat),
    (sortFiles l).Pairwise (fun a b => bytesLe a.1 b.1 = true) := by
  intro l
  induction l with
  | nil => exact List.Pairwise.nil
  | cons f fs ih =>
    rw [sortFiles]
    exact pairwise_insertFile ih

/-! ## Decomposing the replay loop -/

theorem replayEntry_split (acc : List Nat × MemTable) (e : WALEntry) :
    replayEntry acc e = (appendEntryWal acc.1 e, applyEntryTable acc.2 e) := by
  rcases acc with ⟨w, t⟩
  by_cases hd : e.deleted = true <;>
    simp [replayEntry, appendEntryWal, applyEntryTable, hd]

theorem foldl_replayEntry : ∀ (es : List WALEntry) (w : List Nat) (t : MemTable),
    es.foldl replayEntry (w, t) = (es.foldl appendEntryWal w, es.foldl applyEntryTable t) := by
  intro es
  induction es with
  | nil => intros; rfl
  | cons e rest ih =>
    intro w t
    simp only [List.foldl_cons]
    rw [replayEntry_split]
    exact ih _ _

theorem appendEntryWal_eq (w : List Nat) (e : WALEntry) :
    appendEntryWal w e = w ++ entryRecord e := by
  by_cases hd : e.deleted = true <;>
    simp [appendEntryWal, entryRecord, hd, WAL.set, WAL.delete]

theorem foldl_appendEntryWal : ∀ (es : List WALEntry) (w : List Nat),
    es.foldl appendEntryWal w = w ++ (es.map entryRecord).flatten := by
  intro es
  induction es with
  | nil => intro w; simp
  | cons e rest ih =>
    intro w
    simp only [List.foldl_cons, List.map_cons, List.flatten_cons]
    rw [appendEntryWal_eq, ih]
    simp [List.append_assoc]

theorem foldl_replayFile : ∀ (fs : List (List Nat × List Nat)) (acc : List Nat × MemTable),
    fs.foldl (fun acc f => replayFile acc f.2) acc =
      ((fs.map (fun f => decodeAll f.2)).flatten).foldl replayEntry acc := by
  intro fs
  induction fs with
  | nil => intro acc; rfl
  | cons f rest ih =>
    intro acc
    simp only [List.foldl_cons, List.map_cons, List.flatten_cons, List.foldl_append]
    rw [ih]
    rfl

/-! ## Decoded entries of real byte streams are well-bounded -/

theorem isBytes_mem {s : List Nat} {b : Nat} (h : isBytes s = true) (hb : b ∈ s) :
    b < 256 := by
  unfold isBytes at h
  rw [List.all_eq_true] at h
  simpa using h b hb

theorem isBytes_take (n : Nat) {s : List Nat} (h : isBytes s = true) :
    isBytes (s.take n) = true := by
  unfold isBytes at h ⊢
  rw [List.all_eq_true] at h ⊢
  intro b hb
  exact h b (List.take_subset n s hb)

theorem isBytes_drop (n : Nat) {s : List Nat} (h : isBytes s = true) :
    isBytes (s.drop n) = true := by
  unfold isBytes at h ⊢
  rw [List.all_eq_true] at h ⊢
  intro b hb
  exact h b (List.drop_subset n s hb)

theorem fromLeBytes_lt : ∀ bs : List Nat, (∀ b ∈ bs, b < 256) →
    fromLeBytes bs < 256 ^ bs.length := by
  intro bs
  induction bs with
  | nil => intro _; simp [fromLeBytes]
  | cons b rest ih =>
    intro h
    have hb : b < 256 := h b (List.mem_cons_self b rest)
    have hr : fromLeBytes rest < 256 ^ rest.length :=
      ih (fun x hx => h x (List.mem_cons_of_mem b hx))
    rw [fromLeBytes, List.length_cons, Nat.pow_succ]
    omega

theorem next_facts {s : List Nat} {e : WALEntry} {rest : List Nat}
    (hB : isBytes s = true) (h : WALIterator.next s = some (e, rest)) :
    entryBounds e = true ∧ isBytes rest = true := by
  have h88 : (256 : Nat) ^ 8 = 2 ^ 64 := by norm_num
  have h1616 : (256 : Nat) ^ 16 = 2 ^ 128 := by norm_num
  simp only [WALIterator.next] at h
  split at h
  · exact absurd h (by simp)
  · rename_i len_buffer s1 h1
    obtain ⟨h1le, h1b, h1r⟩ := readExact_some_facts h1
    have hklen : fromLeBytes len_buffer < 2 ^ 64 := by
      have hlb : ∀ b ∈ len_buffer, b < 256 := by
        intro b hb
        rw [h1b] at hb
        exact isBytes_mem hB (List.take_subset 8 s hb)
      have hlen8 : len_buffer.length = 8 := by
        rw [h1b, List.length_take, Nat.min_eq_left h1le]
      have := fromLeBytes_lt len_buffer hlb
      rw [hlen8, h88] at this
      exact this
    have hs1 : isBytes s1 = true := by rw [h1r]; exact isBytes_drop _ hB
    split at h
    · exact absurd h (by simp)
    · rename_i bool_buffer s2 h2
      obtain ⟨h2le, h2b, h2r⟩ := readExact_some_facts h2
      have hs2 : isBytes s2 = true := by rw [h2r]; exact isBytes_drop _ hs1
      split at h
      · split at h
        · exact absurd h (by simp)
        · rename_i key s3 h3
          obtain ⟨h3le, h3b, h3r⟩ := readExact_some_facts h3
          have hkey : key.length < 2 ^ 64 := by
            rw [h3b, List.length_take, Nat.min_eq_left h3le]
            exact hklen
          have hs3 : isBytes s3 = true := by rw [h3r]; exact isBytes_drop _ hs2
          split at h
          · exact absurd h (by simp)
          · rename_i tsb s4 h4
            obtain ⟨h4le, h4b, h4r⟩ := readExact_some_facts h4
            have hts : fromLeBytes tsb < 2 ^ 128 := by
              have htb : ∀ b ∈ tsb, b < 256 := by
                intro b hb
                rw [h4b] at hb
                exact isBytes_mem hs3 (List.take_subset 16 s3 hb)
              have hlen16 : tsb.length = 16 := by
                rw [h4b, List.length_take, Nat.min_eq_left h4le]
              have := fromLeBytes_lt tsb htb
              rw [hlen16, h1616] at this
              exact this
            have hs4 : isBytes s4 = true := by rw [h4r]; exact isBytes_drop _ hs3
            cases h
            refine ⟨?_, hs4⟩
            simp only [entryBounds, Bool.and_true, Bool.and_eq_true, decide_eq_true_eq]
            exact ⟨hkey, hts⟩
      · split at h
        · exact absurd h (by simp)
        · rename_i vlen_buffer s3 h3
          obtain ⟨h3le, h3b, h3r⟩ := readExact_some_facts h3
          have hvlen : fromLeBytes vlen_buffer < 2 ^ 64 := by
            have hvb : ∀ b ∈ vlen_buffer, b < 256 := by
              intro b hb
              rw [h3b] at hb
              exact isBytes_mem hs2 (List.take_subset 8 s2 hb)
            have hlen8 : vlen_buffer.length = 8 := by
              rw [h3b, List.length_take, Nat.min_eq_left h3le]
            have := fromLeBytes_lt vlen_buffer hvb
            rw [hlen8, h88] at this
            exact this
          have hs3 : isBytes s3 = true := by rw [h3r]; exact isBytes_drop _ hs2
          split at h
          · exact absurd h (by simp)
          · rename_i key s4 h4
            obtain ⟨h4le, h4b, h4r⟩ := readExact_some_facts h4
            have hkey : key.length < 2 ^ 64 := by
              rw [h4b, List.length_take, Nat.min_eq_left h4le]
              exact hklen
            have hs4 : isBytes s4 = true := by rw [h4r]; exact isBytes_drop _ hs3
            split at h
            · exact absurd h (by simp)
            · rename_i value s5 h5
              obtain ⟨h5le, h5b, h5r⟩ := readExact_some_facts h5
              have hvalue : value.length < 2 ^ 64 := by
                rw [h5b, List.length_take, Nat.min_eq_left h5le]
                exact hvlen
              have hs5 : isBytes s5 = true := by rw [h5r]; exact isBytes_drop _ hs4
              split at h
              · exact absurd h (by simp)
              · rename_i tsb s6 h6
                obtain ⟨h6le, h6b, h6r⟩ := readExact_some_facts h6
                have hts : fromLeBytes tsb < 2 ^ 128 := by
                  have htb : ∀ b ∈ tsb, b < 256 := by
                    intro b hb
                    rw [h6b] at hb
                    exact isBytes_mem hs5 (List.take_subset 16 s5 hb)
                  have hlen16 : tsb.length = 16 := by
                    rw [h6b, List.length_take, Nat.min_eq_left h6le]
                  have := fromLeBytes_lt tsb htb
                  rw [hlen16, h1616] at this
                  exact this
                have hs6 : isBytes s6 = true := by rw [h6r]; exact isBytes_drop _ hs5
                cases h
                refine ⟨?_, hs6⟩
                simp only [entryBounds, Bool.and_true, Bool.and_eq_true, decide_eq_true_eq]
                exact ⟨⟨hkey, hvalue⟩, hts⟩

theorem decodeList_bounds : ∀ (fuel : Nat) (s : List Nat), isBytes s = true →
    ∀ e ∈ decodeList fuel s, entryBounds e = true := by
  intro fuel
  induction fuel with
  | zero =>
    intro s _ e h
    rw [decodeList] at h
    exact absurd h (by simp)
  | succ fuel ih =>
    intro s hB e h
    rw [decodeList] at h
    rcases hn : WALIterator.next s with - | ⟨e', rest⟩
    · rw [hn] at h
      exact absurd h (by simp)
    · rw [hn] at h
      obtain ⟨hb, hrest⟩ := next_facts hB hn
      rcases List.mem_cons.mp h with rfl | hm
      · exact hb
      · exact ih rest hrest e hm

theorem decodeAll_bounds {s : List Nat} (hB : isBytes s = true) :
    ∀ e ∈ decodeAll s, entryBounds e = true :=
  decodeList_bounds s.length s hB

theorem next_entryRecord (e : WALEntry) (rest : List Nat)
    (hb : entryBounds e = true) (hf : e.deleted = true ↔ e.value = none) :
    WALIterator.next (entryRecord e ++ rest) = some (e, rest) := by
  obtain ⟨key, value, ts, deleted⟩ := e
  cases deleted with
  | true =>
    have hv : value = none := hf.mp rfl
    subst hv
    simp only [entryBounds, Bool.and_true, Bool.and_eq_true, decide_eq_true_eq] at hb
    have hrec : entryRecord ⟨key, none, ts, true⟩ = deleteRecord key ts := by
      simp [entryRecord]
    rw [hrec]
    exact next_deleteRecord key ts rest hb.1 hb.2
  | false =>
    have hv : value ≠ none := by
      intro hc
      exact Bool.noConfusion (hf.mpr hc)
    obtain ⟨v, rfl⟩ := Option.ne_none_iff_exists'.mp hv
    simp only [entryBounds, Bool.and_eq_true, decide_eq_true_eq] at hb
    have hrec : entryRecord ⟨key, some v, ts, false⟩ = setRecord key v ts := by
      simp [entryRecord]
    rw [hrec]
    exact next_setRecord key v ts rest hb.1.1 hb.1.2 hb.2

theorem decodeAll_entryRecords : ∀ es : List WALEntry,
    (∀ e ∈ es, entryBounds e = true ∧ (e.deleted = true ↔ e.value = none)) →
    decodeAll ((es.map entryRecord).flatten) = es := by
  intro es
  induction es with
  | nil => intro _; rfl
  | cons e rest ih =>
    intro h
    obtain ⟨hb, hf⟩ := h e (List.mem_cons_self e rest)
    simp only [List.map_cons, List.flatten_cons]
    rw [decodeAll_eq, next_entryRecord e _ hb hf]
    show e :: decodeAll ((rest.map entryRecord).flatten) = e :: rest
    rw [ih (fun e' h' => h e' (List.mem_cons_of_mem _ h'))]

/-! ## Claim C2: the recovery merge -/

theorem contains_of_mem {l : List (List Nat)} {x : List Nat} (h : x ∈ l) :
    l.contains x = true :=
  List.elem_eq_true_of_mem h

theorem contains_eq_false {l : List (List Nat)} {x : List Nat} (h : x ∉ l) :
    l.contains x = false := by
  cases hc : l.contains x
  · rfl
  · exact absurd (List.mem_of_elem_eq_true hc) h

theorem from_dir_eq (files : List (List Nat × List Nat)) (newName : List Nat) :
    from_dir files newName =
      (((sortFiles files).map Prod.fst).foldl removeFile
          (files ++ [(newName, ((allEntries files).map entryRecord).flatten)]),
        ((allEntries files).map entryRecord).flatten,
        replayedTable files) := by
  simp only [from_dir]
  rw [foldl_replayFile, foldl_replayEntry, foldl_appendEntryWal, List.nil_append]
  rfl

theorem foldl_removeFile_eq : ∀ (names : List (List Nat)) (d : List (List Nat × List Nat)),
    names.foldl removeFile d = d.filter (fun f => !(names.contains f.1)) := by
  intro names
  induction names with
  | nil =>
    intro d
    simp [List.contains]
  | cons n ns ih =>
    intro d
    simp only [List.foldl_cons]
    rw [ih (removeFile d n)]
    unfold removeFile
    rw [List.filter_filter]
    apply List.filter_congr
    intro f _
    rw [List.contains_cons]
    cases hfe : (f.1 == n) <;> cases hc : ns.contains f.1 <;> simp [hfe, hc]

theorem allEntries_facts (files : List (List Nat × List Nat))
    (hbytes : ∀ f ∈ files, isBytes f.2 = true) :
    ∀ e ∈ allEntries files, entryBounds e = true ∧ (e.deleted = true ↔ e.value = none) := by
  intro e he
  unfold allEntries at he
  obtain ⟨l, hl, hel⟩ := List.mem_flatten.mp he
  obtain ⟨f, hf, rfl⟩ := List.mem_map.mp hl
  have hfd : f ∈ files := ((sortFiles_perm files).mem_iff).mp hf
  have hfB : isBytes f.2 = true := hbytes f hfd
  exact ⟨decodeAll_bounds hfB e hel, decodeList_flag f.2.length f.2 e hel⟩

/-- Shared with the idempotence claim: the consolidated log decodes exactly to
the replayed entry sequence. -/
theorem decode_from_dir_wal (files : List (List Nat × List Nat)) (newName : List Nat)
    (hbytes : ∀ f ∈ files, isBytes f.2 = true) :
    decodeAll (from_dir files newName).2.1 = allEntries files := by
  rw [from_dir_eq]
  exact decodeAll_entryRecords (allEntries files) (allEntries_facts files hbytes)

/-- **C2**: recovery replays every file's records — files in ascending
filename order (the sort is a permutation of the directory listing, pairwise
ascending), records within a file in file order — into a fresh table, later
records for a key overwriting earlier ones (`applyEntryTable` is plain
`set`/`delete`, no timestamp comparison); afterwards the directory holds
exactly the one consolidated log, whose bytes decode to all replayed records
in that same order, and every previous log file is gone. -/
theorem C2_recovery (files : List (List Nat × List Nat)) (newName : List Nat)
    (hbytes : ∀ f ∈ files, isBytes f.2 = true)
    (hfresh : newName ∉ files.map Prod.fst) :
    (from_dir files newName).2.2 = replayedTable files ∧
    (from_dir files newName).1 = [(newName, (from_dir files newName).2.1)] ∧
    decodeAll (from_dir files newName).2.1 = allEntries files ∧
    (sortFiles files).Perm files ∧
    (sortFiles files).Pairwise (fun a b => bytesLe a.1 b.1 = true) := by
  refine ⟨?_, ?_, decode_from_dir_wal files newName hbytes,
    sortFiles_perm files, sortFiles_sorted files⟩
  · rw [from_dir_eq]
  · rw [from_dir_eq]
    simp only
    rw [foldl_removeFile_eq, List.filter_append]
    have h1 : files.filter
        (fun f => !(((sortFiles files).map Prod.fst).contains f.1)) = [] := by
      rw [List.filter_eq_nil_iff]
      intro f hf
      have : f.1 ∈ (sortFiles files).map Prod.fst :=
        List.mem_map_of_mem Prod.fst (((sortFiles_perm files).mem_iff).mpr hf)
      rw [contains_of_mem this]
      simp
    have h2 : newName ∉ (sortFiles files).map Prod.fst := by
      intro hc
      refine hfresh ?_
      obtain ⟨f, hf, hn⟩ := List.mem_map.mp hc
      exact hn ▸ List.mem_map_of_mem Prod.fst (((sortFiles_perm files).mem_iff).mp hf)
    rw [h1, List.nil_append, List.filter_cons, contains_eq_false h2]
    simp

/-- A two-file directory with overlapping keys for the recovery witness;
the names sort into the opposite of listing order. -/
def exampleDir : List (List Nat × List Nat) :=
  [([50], logOps [] [.setOp [1] [2] 3]), ([49], logOps [] [.delOp [1] 9])]

/-- Witness for `C2_recovery` on `exampleDir`. -/
theorem C2_recovery_witness :
    (from_dir exampleDir [51]).2.2 = replayedTable exampleDir ∧
    (from_dir exampleDir [51]).1 = [([51], (from_dir exampleDir [51]).2.1)] ∧
    decodeAll (from_dir exampleDir [51]).2.1 = allEntries exampleDir ∧
    (sortFiles exampleDir).Perm exampleDir ∧
    (sortFiles exampleDir).Pairwise (fun a b => bytesLe a.1 b.1 = true) :=
  C2_recovery exampleDir [51] (by decide) (by decide)

/-! ## Claim C8: recovery is idempotent -/

/-- **C8**: running recovery again on a directory containing only the single
consolidated log produced by a previous recovery yields a table identical to
the one returned by that previous recovery — the same `MemTable` value, hence
the same entries in the same order and the same size accounting. -/
theorem C8_idempotent (files : List (List Nat × List Nat)) (newName n2 : List Nat)
    (hbytes : ∀ f ∈ files, isBytes f.2 = true) :
    (from_dir [(newName, (from_dir files newName).2.1)] n2).2.2 =
      (from_dir files newName).2.2 := by
  have hdec := decode_from_dir_wal files newName hbytes
  have hwal : (from_dir files newName).2.1 =
      ((allEntries files).map entryRecord).flatten := by rw [from_dir_eq]
  have htab : (from_dir files newName).2.2 = replayedTable files := by rw [from_dir_eq]
  rw [hwal] at hdec
  rw [hwal, htab]
  have htab2 : (from_dir [(newName, ((allEntries files).map entryRecord).flatten)] n2).2.2 =
      replayedTable [(newName, ((allEntries files).map entryRecord).flatten)] := by
    rw [from_dir_eq]
  rw [htab2]
  unfold replayedTable
  have hone : allEntries [(newName, ((allEntries files).map entryRecord).flatten)] =
      decodeAll (((allEntries files).map entryRecord).flatten) := by
    unfold allEntries
    simp [sortFiles, insertFile]
  rw [hone, hdec]

/-- Witness for `C8_idempotent` on the two-file example directory. -/
theorem C8_idempotent_witness :
    (from_dir [([51], (from_dir exampleDir [51]).2.1)] [52]).2.2 =
      (from_dir exampleDir [51]).2.2 :=
  C8_idempotent exampleDir [51] [52] (by decide)

/-! ## Claim C5: failure handling of the core -/

/-- The observable outcome of a call: a value, an explicit failure result
(`io::Result::Err`) returned to the caller, or a process-aborting panic
(`unwrap` on an `Err`). -/
inductive Outcome (α : Type) where
  | ok : α → Outcome α
  | err : Outcome α
  | panicked : Outcome α
deriving DecidableEq

/-- One iteration of the file loop of `WAL::from_dir` with injected I/O
results: when `WAL::from_path` fails the file is silently skipped (`if let
Ok(wal) = …`); otherwise `into_iter` evaluates
`WALIterator::new(self.path).unwrap()`, which panics when opening the read
handle fails; otherwise the file's records are replayed. -/
def replayFileEff (openFails iterFails : Bool) (acc : List Nat × MemTable)
    (content : List Nat) : Outcome (List Nat × MemTable) :=
  if openFails then .ok acc
  else if iterFails then .panicked
  else .ok (replayFile acc content)

/-- `WAL::from_dir` with injected I/O failures.  `newFails`: `WAL::new` fails
(propagated to the caller with `?`).  `openFailNames`: files whose
`WAL::from_path` fails (skipped, best effort).  `iterFailNames`: files whose
read handle fails to open inside `into_iter` (`unwrap`).  `flushFails`: the
final `new_wal.flush()` fails (`unwrap`).  `removeFailNames`: files whose
`remove_file` fails (`unwrap`).  Appends into the new log's write buffer are
modelled as infallible; a failure there would propagate via `?` like
`newFails`. -/
def from_dirEff (files : List (List Nat × List Nat)) (newName : List Nat)
    (newFails : Bool) (openFailNames iterFailNames : List (List Nat))
    (flushFails : Bool) (removeFailNames : List (List Nat)) :
    Outcome (List (List Nat × List Nat) × List Nat × MemTable) :=
  if newFails then .err
  else
    let wal_files := sortFiles files
    let loopRes := wal_files.foldl
      (fun (o : Outcome (List Nat × MemTable)) f =>
        match o with
        | Outcome.ok acc => replayFileEff (openFailNames.contains f.1)
            (iterFailNames.contains f.1) acc f.2
        | Outcome.err => Outcome.err
        | Outcome.panicked => Outcome.panicked)
      (Outcome.ok ([], MemTable.new))
    match loopRes with
    | Outcome.ok res =>
      if flushFails then .panicked
      else if (wal_files.map Prod.fst).any (fun n => removeFailNames.contains n) then
        .panicked
      else .ok ((wal_files.map Prod.fst).foldl removeFile
          (files ++ [(newName, res.1)]), res.1, res.2)
    | Outcome.err => Outcome.err
    | Outcome.panicked => Outcome.panicked

/-- **C5** (counterexample): with an empty directory and an I/O failure on
recovery's final `flush`, `WAL::from_dir` panics (`flush().unwrap()`) instead
of returning an explicit failure result to the caller. -/
theorem C5_counterexample :
    from_dirEff [] [] false [] [] true [] = Outcome.panicked ∧
    from_dirEff [] [] false [] [] true [] ≠ Outcome.err := by
  decide

theorem foldl_replayFileEff_ok : ∀ (fs : List (List Nat × List Nat))
    (acc : List Nat × MemTable),
    fs.foldl
      (fun (o : Outcome (List Nat × MemTable)) f =>
        match o with
        | Outcome.ok acc => replayFileEff (List.contains [] f.1)
            (List.contains [] f.1) acc f.2
        | Outcome.err => Outcome.err
        | Outcome.panicked => Outcome.panicked)
      (Outcome.ok acc) =
      Outcome.ok (fs.foldl (fun acc f => replayFile acc f.2) acc) := by
  intro fs
  induction fs with
  | nil => intro acc; rfl
  | cons f rest ih =>
    intro acc
    simp only [List.foldl_cons]
    show rest.foldl _ (replayFileEff false false acc f.2) = _
    exact ih (replayFile acc f.2)

theorem any_contains_nil (l : List (List Nat)) :
    (l.any fun n => (([] : List (List Nat)).contains n)) = false := by
  simp [List.contains]

/-- **C5** (amended): the failure paths of recovery behave as follows.  With
no I/O failure injected, `from_dir` returns its pure result; a failure of
`WAL::new` is propagated as an explicit failure result; but an I/O failure at
the final `flush`, a failure to construct the decoder inside `into_iter`, or
a failure to delete an old log file each cause a panic — not an explicit
failure result.  (Files that fail to open are skipped; the pure table and
log-writer operations in the embedding are total and cannot fail.) -/
theorem C5_failure_handling :
    (∀ (files : List (List Nat × List Nat)) (newName : List Nat),
      from_dirEff files newName false [] [] false [] =
        Outcome.ok (from_dir files newName)) ∧
    (∀ (files : List (List Nat × List Nat)) (newName : List Nat)
        (o i : List (List Nat)) (fl : Bool) (r : List (List Nat)),
      from_dirEff files newName true o i fl r = Outcome.err) ∧
    (∀ (files : List (List Nat × List Nat)) (newName : List Nat),
      from_dirEff files newName false [] [] true [] = Outcome.panicked) ∧
    (∀ (nm c n2 : List Nat),
      from_dirEff [(nm, c)] n2 false [] [nm] false [] = Outcome.panicked) ∧
    (∀ (nm c n2 : List Nat),
      from_dirEff [(nm, c)] n2 false [] [] false [nm] = Outcome.panicked) := by
  refine ⟨?_, ?_, ?_, ?_, ?_⟩
  · intro files newName
    rw [from_dir_eq]
    simp only [from_dirEff, foldl_replayFileEff_ok, Bool.false_eq_true, if_false,
      any_contains_nil, foldl_replayFile, foldl_replayEntry, foldl_appendEntryWal,
      List.nil_append]
    rfl
  · intro files newName o i fl r
    rfl
  · intro files newName
    simp only [from_dirEff, foldl_replayFileEff_ok, Bool.false_eq_true, if_false,
      eq_self_iff_true, if_true]
  · intro nm c n2
    simp [from_dirEff, sortFiles, insertFile, replayFileEff, List.contains_cons]
  · intro nm c n2
    simp [from_dirEff, sortFiles, insertFile, replayFileEff, foldl_replayFileEff_ok,
      List.contains_cons]

/-- Witness for `C5_failure_handling` at concrete inputs. -/
theorem C5_failure_handling_witness :
    from_dirEff exampleDir [51] false [] [] false [] =
      Outcome.ok (from_dir exampleDir [51]) ∧
    from_dirEff exampleDir [51] true [] [] false [] = Outcome.err ∧
    from_dirEff exampleDir [51] false [] [] true [] = Outcome.panicked ∧
    from_dirEff [([49], [7])] [51] false [] [[49]] false [] = Outcome.panicked ∧
    from_dirEff [([49], [7])] [51] false [] [] false [[49]] = Outcome.panicked :=
  ⟨C5_failure_handling.1 exampleDir [51],
   C5_failure_handling.2.1 exampleDir [51] [] [] false [],
   C5_failure_handling.2.2.1 exampleDir [51],
   C5_failure_handling.2.2.2.1 [49] [7] [51],
   C5_failure_handling.2.2.2.2 [49] [7] [51]⟩
